import Mathlib

/-!
# iceprog: flash programming engine and boot-vector manager

A shallow embedding of `iceprog.c`.  C `int` values are mathematical integers
reduced to 32-bit two's complement by `wrap32` after every arithmetic step,
`unsigned int` values are naturals reduced by `u32`, and `uint8_t` is `Fin 256`.
A run of the program is described by the ordered list of flash routines it
calls (`Call`); every routine is in turn described by the SPI operations of its
body (`Op`).
-/

namespace Iceprog

/-! ## Machine integers -/

/-- One byte, the C type `uint8_t`. -/
abbrev uint8_t := Fin 256

/-- Reduction of an integer to the range of a 32-bit two's complement `int`. -/
def wrap32 (x : Int) : Int := (x + 2147483648) % 4294967296 - 2147483648

/-- Reduction of a natural number to the range of a 32-bit `unsigned int`. -/
def u32 (x : Nat) : Nat := x % 4294967296

/-- The C cast `(uint8_t)x` of an `int`: the low eight bits. -/
def u8 (x : Int) : uint8_t := ⟨(x % 256).toNat, by omega⟩

/-- The constant `NUM_VECTORS`. -/
def NUM_VECTORS : Nat := 10

/-! ## SPI operations and the flash routines -/

/-- The three transport-level routines every flash routine is built from:
`set_gpio(slavesel_b, creset_b)`, `send_spi(data, n)` and `xfer_spi(data, n)`,
the latter two with the `n` bytes they clock out (none when `n < 1`). -/
inductive Op where
  | set_gpio (slavesel_b creset_b : Int)
  | send_spi (data : List uint8_t)
  | xfer_spi (data : List uint8_t)
  deriving DecidableEq

/-- The array `uint8_t command[4]` of the addressed flash routines. -/
def command (opcode : uint8_t) (addr : Int) : List uint8_t :=
  [opcode, u8 (addr >>> (16 : Nat)), u8 (addr >>> (8 : Nat)), u8 addr]

/-- Body of `flash_read_id`. -/
def flash_read_id : List Op :=
  [.set_gpio 0 0, .xfer_spi (0x9F :: List.replicate 20 0), .set_gpio 1 0]

/-- Body of `flash_power_up`. -/
def flash_power_up : List Op :=
  [.set_gpio 0 0, .xfer_spi [0xAB], .set_gpio 1 0]

/-- Body of `flash_power_down`. -/
def flash_power_down : List Op :=
  [.set_gpio 0 0, .xfer_spi [0xB9], .set_gpio 1 0]

/-- Body of `flash_write_enable`. -/
def flash_write_enable : List Op :=
  [.set_gpio 0 0, .xfer_spi [0x06], .set_gpio 1 0]

/-- Body of `flash_bulk_erase`. -/
def flash_bulk_erase : List Op :=
  [.set_gpio 0 0, .xfer_spi [0xc7], .set_gpio 1 0]

/-- Body of `flash_64kB_sector_erase`. -/
def flash_64kB_sector_erase (addr : Int) : List Op :=
  [.set_gpio 0 0, .send_spi (command 0xd8 addr), .set_gpio 1 0]

/-- Body of `flash_4kB_subsector_erase`. -/
def flash_4kB_subsector_erase (addr : Int) : List Op :=
  [.set_gpio 0 0, .send_spi (command 0x20 addr), .set_gpio 1 0]

/-- Body of `flash_prog(addr, data, n)`; `data` lists the `n` bytes passed. -/
def flash_prog (addr : Int) (data : List uint8_t) : List Op :=
  [.set_gpio 0 0, .send_spi (command 0x02 addr), .send_spi data, .set_gpio 1 0]

/-- Body of `flash_read(addr, data, n)`: the buffer is zeroed by `memset` and
then exchanged. -/
def flash_read (addr : Int) (n : Nat) : List Op :=
  [.set_gpio 0 0, .send_spi (command 0x03 addr), .xfer_spi (List.replicate n 0), .set_gpio 1 0]

/-- One iteration of the loop of `flash_wait`: a status read with
`uint8_t data[2] = { 0x05 }`. -/
def flash_wait_poll : List Op :=
  [.set_gpio 0 0, .xfer_spi [0x05, 0], .set_gpio 1 0]

/-- The loop of `flash_wait`, run against the status bytes `data[1]` the device
answers to successive polls.  It returns the number of polls made when a poll
finds bit 0 clear, and `none` when the device never answers so within the
given replies. -/
def flash_wait : List uint8_t → Option Nat
  | [] => none
  | status :: rest =>
    if status.val % 2 = 0 then some 1
    else (flash_wait rest).map (· + 1)

/-- A call of one of the flash routines, with its arguments. -/
inductive Call where
  | flash_read_id
  | flash_power_up
  | flash_power_down
  | flash_write_enable
  | flash_bulk_erase
  | flash_64kB_sector_erase (addr : Int)
  | flash_4kB_subsector_erase (addr : Int)
  | flash_prog (addr : Int) (data : List uint8_t)
  | flash_read (addr : Int) (n : Nat)
  | flash_wait
  deriving DecidableEq

/-- The SPI operations performed by a call; for `flash_wait` those of one
poll. -/
def Call.ops : Call → List Op
  | .flash_read_id => Iceprog.flash_read_id
  | .flash_power_up => Iceprog.flash_power_up
  | .flash_power_down => Iceprog.flash_power_down
  | .flash_write_enable => Iceprog.flash_write_enable
  | .flash_bulk_erase => Iceprog.flash_bulk_erase
  | .flash_64kB_sector_erase addr => Iceprog.flash_64kB_sector_erase addr
  | .flash_4kB_subsector_erase addr => Iceprog.flash_4kB_subsector_erase addr
  | .flash_prog addr data => Iceprog.flash_prog addr data
  | .flash_read addr n => Iceprog.flash_read addr n
  | .flash_wait => Iceprog.flash_wait_poll

/-- The bytes clocked out to the flash by a list of SPI operations. -/
def mosi : List Op → List uint8_t
  | [] => []
  | .set_gpio _ _ :: rest => mosi rest
  | .send_spi data :: rest => data ++ mosi rest
  | .xfer_spi data :: rest => data ++ mosi rest

/-- The first byte a call clocks out: its flash opcode. -/
def Call.opcode (c : Call) : Option uint8_t := (mosi c.ops).head?

/-- The calls that change flash content: the erase routines and `flash_prog`. -/
def Call.mutates : Call → Bool
  | .flash_bulk_erase => true
  | .flash_64kB_sector_erase _ => true
  | .flash_4kB_subsector_erase _ => true
  | .flash_prog _ _ => true
  | _ => false

/-! ## The write path of `main` -/

/-- The local `begin_addr` of `main`: `rw_offset & ~0xffff`. -/
def begin_addr (rw_offset : Int) : Int := Int.land rw_offset (Int.lnot 0xffff)

/-- The local `end_addr` of `main`:
`(rw_offset + (int)st_buf.st_size + 0xffff) & ~0xffff`. -/
def end_addr (rw_offset st_size : Int) : Int :=
  Int.land (wrap32 (wrap32 (rw_offset + wrap32 st_size) + 0xffff)) (Int.lnot 0xffff)

/-- The sector erase loop of `main`,
`for (int addr = begin_addr; addr < end_addr; addr += 0x10000)`. -/
def erase_loop (end_addr : Int) : Nat → Int → List Call
  | 0, _ => []
  | fuel + 1, addr =>
    if addr < end_addr then
      [.flash_write_enable, .flash_64kB_sector_erase addr, .flash_wait]
        ++ erase_loop end_addr fuel (wrap32 (addr + 0x10000))
    else []

/-- The erase phase of `main` (`if (!dont_erase) ...`).  The sector loop makes
at most `2^32 / 2^16` rounds, which is the fuel given to it. -/
def erase_phase (dont_erase bulk_erase : Bool) (rw_offset st_size : Int) : List Call :=
  if dont_erase then []
  else if bulk_erase then [.flash_write_enable, .flash_bulk_erase, .flash_wait]
  else erase_loop (end_addr rw_offset st_size) 65536 (begin_addr rw_offset)

/-- The local `page_size` of the program loop for the target address `a`,
`256 - a % 256` with the remainder of C (which has the sign of `a`), as the
byte count handed to `fread`. -/
def page (a : Int) : Nat := (256 - Int.tmod a 256).toNat

/-- The program loop of `main`,
`for (int rc, addr = 0; true; addr += rc)`, reading the rest `f` of the input:
`fread` delivers the bytes asked for, or all that remain.  The chunk read is
held in `uint8_t buffer[256]`: for `rw_offset >= 0` it never has more than 256
bytes; for a negative target address that is not page-aligned `page_size` is
257 to 511 and the list is what `fread` is asked to put there, beyond the end
of the array. -/
def prog_loop (rw_offset : Int) : Nat → Int → List uint8_t → List Call
  | 0, _, _ => []
  | fuel + 1, addr, f =>
    let page_size := page (wrap32 (rw_offset + addr))
    let buffer := f.take page_size
    let rc : Int := buffer.length
    if rc ≤ 0 then []
    else
      [.flash_write_enable, .flash_prog (wrap32 (rw_offset + addr)) buffer, .flash_wait]
        ++ prog_loop rw_offset fuel (wrap32 (addr + rc)) (f.drop page_size)

/-- The write path of `main` (`if (!read_mode && !check_mode)`): erase phase,
then the program loop over the input file `f`.  Every round of the program loop
consumes at least one byte, so `f.length + 1` rounds of fuel are enough. -/
def write_path (dont_erase bulk_erase : Bool) (rw_offset st_size : Int)
    (f : List uint8_t) : List Call :=
  erase_phase dont_erase bulk_erase rw_offset st_size
    ++ prog_loop rw_offset (f.length + 1) 0 f

/-- The `flash_prog` calls of a run, as pairs of target address and payload. -/
def progs : List Call → List (Int × List uint8_t)
  | [] => []
  | .flash_prog addr data :: rest => (addr, data) :: progs rest
  | _ :: rest => progs rest

/-- The addresses of the `flash_64kB_sector_erase` calls of a run. -/
def sector_erases : List Call → List Int
  | [] => []
  | .flash_64kB_sector_erase addr :: rest => addr :: sector_erases rest
  | _ :: rest => sector_erases rest

/-! ## Read and verify loops of `main` -/

/-- The loop of the read mode of `main`,
`for (int addr = 0; addr < read_size; addr += 256)`; each round reads 256 bytes
and writes them to the output. -/
def read_loop (rw_offset read_size : Int) : Nat → Int → List Call
  | 0, _ => []
  | fuel + 1, addr =>
    if addr < read_size then
      .flash_read (wrap32 (rw_offset + addr)) 256
        :: read_loop rw_offset read_size fuel (wrap32 (addr + 256))
    else []

/-- The verify loop of `main`, `for (int addr = 0; true; addr += 256)`, over the
rest `f` of the reference file; `rd addr n` is the data the flash returns to
`flash_read(addr, ., n)`.  The result pairs the calls made with the outcome:
`false` when a chunk differed and `error()` ended the process. -/
def verify_loop (rw_offset : Int) (rd : Int → Nat → List uint8_t) :
    Nat → Int → List uint8_t → List Call × Bool
  | 0, _, _ => ([], true)
  | fuel + 1, addr, f =>
    let buffer_file := f.take 256
    let rc : Int := buffer_file.length
    if rc ≤ 0 then ([], true)
    else if rd (wrap32 (rw_offset + addr)) buffer_file.length ≠ buffer_file then
      ([.flash_read (wrap32 (rw_offset + addr)) buffer_file.length], false)
    else
      let rest := verify_loop rw_offset rd fuel (wrap32 (addr + 256)) (f.drop 256)
      (.flash_read (wrap32 (rw_offset + addr)) buffer_file.length :: rest.1, rest.2)

/-! ## Boot-vector manager -/

/-- The routine `change_vector(vector, boot, buffer)`; the buffer is the memory
the pointer `buffer` designates, as a map from offsets to bytes. -/
def change_vector (vector boot : Nat) (buffer : Nat → uint8_t) : Nat → uint8_t :=
  let addr_boot := u32 (boot * 0x20)
  let addr_vector := u32 (vector * 0x20)
  let vector_temp0 := buffer (u32 (addr_boot + 9))
  let vector_temp1 := buffer (u32 (addr_boot + 10))
  let vector_temp2 := buffer (u32 (addr_boot + 11))
  let buffer := Function.update buffer (u32 (addr_boot + 9)) (buffer (u32 (addr_vector + 9)))
  let buffer := Function.update buffer (u32 (addr_boot + 10)) (buffer (u32 (addr_vector + 10)))
  let buffer := Function.update buffer (u32 (addr_boot + 11)) (buffer (u32 (addr_vector + 11)))
  let buffer := Function.update buffer (u32 (addr_vector + 9)) vector_temp0
  let buffer := Function.update buffer (u32 (addr_vector + 10)) vector_temp1
  let buffer := Function.update buffer (u32 (addr_vector + 11)) vector_temp2
  buffer

/-- The `n` bytes of a buffer from offset `addr` on (`buffer+addr`, `n`). -/
def slice (buffer : Nat → uint8_t) (addr n : Nat) : List uint8_t :=
  (List.range n).map (fun k => buffer (addr + k))

/-- The page loop of `test_change_vectors`,
`for (int addr = 0; addr < subsector_size; addr += page_size)`. -/
def commit_loop (buffer : Nat → uint8_t) (page_size subsector_size : Nat) :
    Nat → Nat → List Call
  | 0, _ => []
  | fuel + 1, addr =>
    if addr < subsector_size then
      [.flash_write_enable, .flash_prog (wrap32 addr) (slice buffer addr page_size), .flash_wait]
        ++ commit_loop buffer page_size subsector_size fuel (u32 (addr + page_size))
    else []

/-- The commit path of `test_change_vectors`: subsector erase, then the page
loop with `page_size = 256` and `subsector_size = 0x1000`, over the buffer
`change_vector` returned.  The loop ends after `0x1000 / 256` rounds. -/
def commit (buffer : Nat → uint8_t) : List Call :=
  [.flash_write_enable, .flash_4kB_subsector_erase 0x00, .flash_wait]
    ++ commit_loop buffer 256 0x1000 0x1000 0

/-- The routine `test_change_vectors(vector1, vector2)`; `buffer` is what
`flash_read(0, buffer, 0x1000)` left in the shadow buffer. -/
def test_change_vectors (vector1 vector2 : Nat) (buffer : Nat → uint8_t) : List Call :=
  [.flash_power_up, .flash_read_id, .flash_read 0 0x1000]
    ++ commit (change_vector vector1 vector2 buffer)
    ++ [.flash_power_down]

/-- The target address of the record at `offset`, as `test_get_vectors` and
the message of `change_vector` compute it:
`(buffer[offset+9] << 16) + (buffer[offset+10] << 8) + buffer[offset+11]`. -/
def vector_at (buffer : Nat → uint8_t) (offset : Nat) : Nat :=
  ((buffer (offset + 9)).val <<< 16) + ((buffer (offset + 10)).val <<< 8)
    + (buffer (offset + 11)).val

/-- The record loop of `test_get_vectors`,
`for (unsigned int i=0, offset=0; i<50; i++, offset+=0x20)`: the list of the
pairs (`i`, `vector`) it prints.  The counters stay below `50 * 0x20`, so no
reduction to 32 bits is needed. -/
def vector_loop (buffer : Nat → uint8_t) : Nat → Nat → Nat → List (Nat × Nat)
  | 0, _, _ => []
  | fuel + 1, i, offset =>
    if i < 50 then
      if buffer offset = 0x7E ∧ buffer (offset + 1) = 0xAA then
        (i, vector_at buffer offset) :: vector_loop buffer fuel (i + 1) (offset + 0x20)
      else []
    else []

/-- The records `test_get_vectors` reports for a shadow buffer. -/
def get_vectors (buffer : Nat → uint8_t) : List (Nat × Nat) :=
  vector_loop buffer 50 0 0

/-- The routine `get_comment(vector)`. -/
def get_comment (vector : Nat) : List Call :=
  [.flash_read (wrap32 (u32 (vector + 2))) 25]

/-- The routine `test_get_vectors()`: one comment read per reported record. -/
def test_get_vectors (buffer : Nat → uint8_t) : List Call :=
  [.flash_power_up, .flash_read_id, .flash_read 0 0x1000]
    ++ (get_vectors buffer).flatMap (fun r => get_comment r.2)
    ++ [.flash_power_down]

/-! ## `main` -/

/-- The option variables of `main` after the `getopt` loop. -/
structure Options where
  read_size : Int
  rw_offset : Int
  read_mode : Bool
  check_mode : Bool
  bulk_erase : Bool
  dont_erase : Bool
  prog_sram : Bool
  test_mode : Bool
  get_vectors : Bool
  change_vectors : Bool
  vector1 : Nat
  vector2 : Nat

/-- What `main` reads from its surroundings: the content `f` of the input file,
its size `st_size` as `stat` reports it, the content `buffer` of the first
subsector as `flash_read` delivers it, and the data `rd addr n` the flash
returns during verification. -/
structure Env where
  f : List uint8_t
  st_size : Int
  buffer : Nat → uint8_t
  rd : Int → Nat → List uint8_t

/-- The guard of the `change_vectors` branch of `main`:
`(vector1 <= NUM_VECTORS) && (vector2 <= NUM_VECTORS)`. -/
def vectors_accepted (vector1 vector2 : Nat) : Bool :=
  decide (vector1 ≤ NUM_VECTORS) && decide (vector2 ≤ NUM_VECTORS)

/-- The `change_vectors` branch of `main`. -/
def main_change_vectors (vector1 vector2 : Nat) (buffer : Nat → uint8_t) : List Call :=
  if vectors_accepted vector1 vector2 then test_change_vectors vector1 vector2 buffer
  else []

/-- The flash routines `main` calls, in order.  The mode checks that end in
`help()` and the SRAM branch call none.  `fuel` bounds the rounds of the read
loop, the one loop of `main` whose end is not forced by its input. -/
def main (fuel : Nat) (o : Options) (e : Env) : List Call :=
  if o.read_mode.toNat + o.check_mode.toNat + o.prog_sram.toNat + o.test_mode.toNat > 1 then []
  else if o.bulk_erase && o.dont_erase then []
  else if o.test_mode then [.flash_power_up, .flash_read_id, .flash_power_down]
  else if o.prog_sram then []
  else if o.change_vectors then main_change_vectors o.vector1 o.vector2 e.buffer
  else if o.get_vectors then test_get_vectors e.buffer
  else
    [.flash_power_up, .flash_read_id]
      ++ (if !o.read_mode && !o.check_mode then
            write_path o.dont_erase o.bulk_erase o.rw_offset e.st_size e.f
          else [])
      ++ (if o.read_mode then read_loop o.rw_offset o.read_size fuel 0 ++ [.flash_power_down]
          else
            (verify_loop o.rw_offset e.rd (e.f.length + 1) 0 e.f).1
              ++ (if (verify_loop o.rw_offset e.rd (e.f.length + 1) 0 e.f).2
                  then [.flash_power_down] else []))

/-! ## The order of commands in a run -/

/-- The discipline of erase and program commands in a run: every call that
changes flash content has `flash_write_enable` as the call right before it and
`flash_wait` as the call right after it. -/
def Guarded (t : List Call) : Prop :=
  ∀ (pre : List Call) (c : Call) (post : List Call), t = pre ++ c :: post → c.mutates = true →
    (∃ pre1, pre = pre1 ++ [Call.flash_write_enable]) ∧ (∃ post1, post = Call.flash_wait :: post1)

/-! ## The flash device -/

/-- Modelled from the spec: the content of the SPI NOR flash, one byte per
address of its 24-bit address space (the device is hardware, not code of this
repository). -/
structure Flash where
  cell : Nat → uint8_t

/-- The 24-bit big-endian address carried by three command bytes. -/
def be24 (a2 a1 a0 : uint8_t) : Nat := a2.val * 65536 + a1.val * 256 + a0.val

/-- Modelled from the spec: an erase clears the whole aligned block of `size`
bytes around `addr` to `0xFF`. -/
def Flash.erase (mem : Flash) (size addr : Nat) : Flash :=
  ⟨fun x => if x / size = addr / size then 0xFF else mem.cell x⟩

/-- Modelled from the spec: a page program stores the payload at its address,
byte after byte, the address counter running in the 24-bit address space. -/
def Flash.store : List uint8_t → Flash → Nat → Flash
  | [], mem, _ => mem
  | b :: rest, mem, addr =>
    Flash.store rest ⟨Function.update mem.cell (addr % 16777216) b⟩ (addr + 1)

/-- Modelled from the spec: the `n` bytes a read shifts out from `addr` on. -/
def Flash.load (mem : Flash) (addr n : Nat) : List uint8_t :=
  (List.range n).map (fun i => mem.cell ((addr + i) % 16777216))

/-- Modelled from the spec: the effect on the flash of one SPI transaction with
the bytes `frame` clocked out: bulk erase `C7h`, sector erase `D8h`, subsector
erase `20h` and page program `02h` act on the content, every other command
leaves it as it is. -/
def Flash.exec (mem : Flash) (frame : List uint8_t) : Flash :=
  match frame with
  | [] => mem
  | op :: rest =>
    if op = 0xc7 then ⟨fun _ => 0xFF⟩
    else
      match rest with
      | a2 :: a1 :: a0 :: data =>
        if op = 0xd8 then mem.erase 65536 (be24 a2 a1 a0)
        else if op = 0x20 then mem.erase 4096 (be24 a2 a1 a0)
        else if op = 0x02 then Flash.store data mem (be24 a2 a1 a0)
        else mem
      | _ => mem

/-- Modelled from the spec: the bytes the flash shifts out after the four
command bytes of a transaction: for a read `03h` the content from the address
on, one byte per byte clocked. -/
def Flash.reply (mem : Flash) (frame : List uint8_t) : List uint8_t :=
  match frame with
  | op :: a2 :: a1 :: a0 :: data =>
    if op = 0x03 then mem.load (be24 a2 a1 a0) data.length else data.map (fun _ => 0)
  | _ => []

/-- The flash content after a run of calls. -/
def Flash.run (mem : Flash) (calls : List Call) : Flash :=
  calls.foldl (fun m c => m.exec (mosi c.ops)) mem

/-- Modelled from the spec: the number of payload bytes the bridge clocks for a
transfer that `send_spi` or `xfer_spi` announce for `n` bytes: the value of the
two length bytes they send, `n - 1` cut to 16 bits, plus one; none for `n < 1`,
where nothing is sent (the bridge is hardware, not code of this repository). -/
def framed_length (n : Int) : Nat :=
  if n < 1 then 0
  else (u8 (n - 1)).val + 256 * (u8 ((n - 1) >>> (8 : Nat))).val + 1

/-- The flash content that reaches the data buffer in `flash_read(addr, data,
n)`: the flash shifts out one byte for every byte the bridge clocks, and the
bridge clocks as many as the length bytes of `xfer_spi` say, which is `n` only
up to 65536. -/
def flash_read_data (mem : Flash) (addr : Int) (n : Nat) : List uint8_t :=
  mem.reply (mosi (flash_read addr (framed_length n)))

/-! ## The link to the bridge -/

/-- The outcome of one `ftdi_read_data(&ftdic, &data, 1)`: a byte (`rc = 1`),
nothing yet (`rc = 0`), or a transport error (`rc < 0`). -/
inductive Rx where
  | byte (data : uint8_t)
  | idle
  | fail
  deriving DecidableEq

/-- The link to the bridge: the bytes written to it so far, in order, and the
outcomes of the reads still to come; once these are used up the link stays
idle.  Writes are taken to succeed (a failed write ends in `error()`). -/
structure Link where
  tx : List uint8_t
  rx : List Rx
  deriving DecidableEq

/-- How a routine that reads from the link ends: it returns with a value, it
calls `error()`, or it polls an idle link for ever. -/
inductive Run (α : Type) where
  | ok (a : α) (l : Link)
  | abort (l : Link)
  | stall
  deriving DecidableEq

/-- The routine `send_byte(data)`. -/
def send_byte (data : uint8_t) (l : Link) : Link := ⟨l.tx ++ [data], l.rx⟩

/-- The loop of `recv_byte` over the outcomes of its reads: read errors end in
`error()`, an idle link is polled again. -/
def recv_byte_poll (tx : List uint8_t) : List Rx → Run uint8_t
  | [] => .stall
  | .byte data :: rest => .ok data ⟨tx, rest⟩
  | .idle :: rest => recv_byte_poll tx rest
  | .fail :: rest => .abort ⟨tx, rest⟩

/-- The routine `recv_byte()`. -/
def recv_byte (l : Link) : Run uint8_t := recv_byte_poll l.tx l.rx

/-- The routine `send_spi(data, n)`. -/
def send_spi (data : List uint8_t) (n : Int) (l : Link) : Link :=
  if n < 1 then l
  else
    let l := send_byte 0x11 l
    let l := send_byte (u8 (n - 1)) l
    let l := send_byte (u8 ((n - 1) >>> (8 : Nat))) l
    ⟨l.tx ++ data.take n.toNat, l.rx⟩

/-- The receive loop of `xfer_spi`, `for (int i = 0; i < n; i++) data[i] =
recv_byte()`, with `k` rounds to go: the bytes received, in order. -/
def xfer_recv (tx : List uint8_t) : Nat → List Rx → Run (List uint8_t)
  | 0, rx => .ok [] ⟨tx, rx⟩
  | k + 1, rx =>
    match recv_byte_poll tx rx with
    | .ok d l =>
      match xfer_recv tx k l.rx with
      | .ok ds l2 => .ok (d :: ds) l2
      | .abort l2 => .abort l2
      | .stall => .stall
    | .abort l => .abort l
    | .stall => .stall

/-- The routine `xfer_spi(data, n)`: the value returned is the content of the
buffer `data` afterwards. -/
def xfer_spi (data : List uint8_t) (n : Int) (l : Link) : Run (List uint8_t) :=
  if n < 1 then .ok data l
  else
    let l := send_byte 0x31 l
    let l := send_byte (u8 (n - 1)) l
    let l := send_byte (u8 ((n - 1) >>> (8 : Nat))) l
    match xfer_recv (l.tx ++ data.take n.toNat) n.toNat l.rx with
    | .ok ds l2 => .ok (ds ++ data.drop n.toNat) l2
    | .abort l2 => .abort l2
    | .stall => .stall

/-- The routine `set_gpio(slavesel_b, creset_b)`: the pin-set command `0x80`
with the value byte and the direction mask `0x93`. -/
def set_gpio (slavesel_b creset_b : Int) (l : Link) : Link :=
  let gpio : Nat := 1
  let gpio := if slavesel_b ≠ 0 then gpio ||| 0x10 else gpio
  let gpio := if creset_b ≠ 0 then gpio ||| 0x80 else gpio
  send_byte 0x93 (send_byte (u8 gpio) (send_byte 0x80 l))

/-! ## The abort routine -/

/-- The globals of the program and the state of the device they mirror: the
link, the flags `ftdic_open` and `ftdic_latency_set`, the saved latency
`ftdi_latency`, the latency timer the device runs with, whether
`ftdi_usb_close` was called, and the status the process has exited with. -/
structure Session where
  link : Link
  ftdic_open : Bool
  ftdic_latency_set : Bool
  ftdi_latency : Nat
  latency : Nat
  usb_closed : Bool
  exit_status : Option Int

/-- The routine `check_rx()`: reads until a read returns no byte. -/
def check_rx : List Rx → List Rx
  | [] => []
  | .byte _ :: rest => check_rx rest
  | .idle :: rest => rest
  | .fail :: rest => rest

/-- The routine `error()`: `check_rx()`, then, the device being open, the saved
latency is set again if it was changed and the device is closed; the process
ends with `exit(1)`.  Nothing is written to the link. -/
def error (s : Session) : Session :=
  let s := { s with link := ⟨s.link.tx, check_rx s.link.rx⟩ }
  let s :=
    if s.ftdic_open then
      let s := if s.ftdic_latency_set then { s with latency := s.ftdi_latency } else s
      if s.ftdic_open then { s with usb_closed := true } else s
    else s
  { s with exit_status := some 1 }

/-! ## The output of the read mode -/

/-- The bytes the read mode of `main` writes to its output file, round by round
of `for (int addr = 0; addr < read_size; addr += 256)`: each round reads 256
bytes with `flash_read` and writes them with `fwrite(buffer, 256, 1, f)`. -/
def read_output (mem : Flash) (rw_offset read_size : Int) : Nat → Int → List uint8_t
  | 0, _ => []
  | fuel + 1, addr =>
    if addr < read_size then
      flash_read_data mem (wrap32 (rw_offset + addr)) 256
        ++ read_output mem rw_offset read_size fuel (wrap32 (addr + 256))
    else []

/-! ## Arithmetic of the address mask and of the casts -/

theorem ldiff_low16 (m : Nat) : Nat.ldiff m 65535 = 65536 * (m / 65536) := by
  apply Nat.eq_of_testBit_eq
  intro i
  have h1 : (65535 : Nat) = 2 ^ 16 - 1 := by norm_num
  have h2 : (65536 : Nat) = 2 ^ 16 := by norm_num
  rw [Nat.testBit_ldiff, h1, Nat.testBit_two_pow_sub_one, h2, Nat.testBit_mul_pow_two,
    ← Nat.shiftRight_eq_div_pow, Nat.testBit_shiftRight]
  by_cases h : i < 16
  · simp [h]
  · have : 16 + (i - 16) = i := by omega
    simp [h, this, Nat.le_of_not_lt h]

theorem lor_low16 (m : Nat) : m ||| 65535 = 65536 * (m / 65536) + 65535 := by
  apply Nat.eq_of_testBit_eq
  intro i
  have h1 : (65535 : Nat) = 2 ^ 16 - 1 := by norm_num
  have h2 : (65536 : Nat) = 2 ^ 16 := by norm_num
  rw [Nat.testBit_lor, h2, Nat.testBit_mul_pow_two_add _ (by norm_num), h1,
    Nat.testBit_two_pow_sub_one, ← Nat.shiftRight_eq_div_pow, Nat.testBit_shiftRight]
  by_cases h : i < 16
  · simp [h]
  · have : 16 + (i - 16) = i := by omega
    simp [h, this]

/-- Masking with `~0xffff` rounds down to a multiple of 65536, for negative
values too. -/
theorem land_lnot_ffff (x : Int) : Int.land x (Int.lnot 0xffff) = x - x % 65536 := by
  cases x with
  | ofNat m =>
    show ((Nat.ldiff m 65535 : Nat) : Int) = _
    rw [ldiff_low16]
    have := Nat.div_add_mod m 65536
    simp only [Int.ofNat_eq_coe]
    omega
  | negSucc m =>
    show Int.negSucc (m ||| 65535) = _
    rw [lor_low16]
    have := Nat.div_add_mod m 65536
    simp only [Int.negSucc_eq]
    omega

theorem begin_addr_eq (rw_offset : Int) : begin_addr rw_offset = rw_offset - rw_offset % 65536 :=
  land_lnot_ffff rw_offset

theorem end_addr_eq (rw_offset st_size : Int) :
    end_addr rw_offset st_size
      = wrap32 (wrap32 (rw_offset + wrap32 st_size) + 0xffff)
        - wrap32 (wrap32 (rw_offset + wrap32 st_size) + 0xffff) % 65536 :=
  land_lnot_ffff _

/-! ## C1: the targeted erase range -/

/-- C1, as stated, fails: for the non-negative write offset `0x7FFF0000` and a
file of one byte the sum `rw_offset + st_size + 0xffff` leaves the range of
`int`, and the `end_addr` computed lies below `rw_offset + st_size`. -/
theorem C1_end_addr_overflow :
    (0 : Int) ≤ 2147418112 ∧ (0 : Int) ≤ 1 ∧ end_addr 2147418112 1 = -2147483648
      ∧ ¬ (2147418112 + 1 ≤ end_addr 2147418112 1) := by
  have h : end_addr 2147418112 1 = -2147483648 := by
    rw [end_addr_eq]; decide
  rw [h]; decide

/-- C1, amended: for a non-negative write offset `o` and file size `s` whose sum
`o + s + 0xffff` stays in the range of `int`, the erase range computed in `main`
satisfies `begin_addr ≤ o`, `end_addr ≥ o + s`, and both bounds are multiples of
65536. -/
theorem C1_erase_range (o s : Int) (ho : 0 ≤ o) (hs : 0 ≤ s)
    (hfit : o + s + 0xffff < 2147483648) :
    begin_addr o ≤ o ∧ o + s ≤ end_addr o s
      ∧ begin_addr o % 65536 = 0 ∧ end_addr o s % 65536 = 0 := by
  rw [begin_addr_eq, end_addr_eq]
  simp only [wrap32]
  omega

/-- C1, amended, at offset 70000 and size 300. -/
theorem C1_erase_range_witness :
    begin_addr 70000 ≤ 70000 ∧ 70000 + 300 ≤ end_addr 70000 300
      ∧ begin_addr 70000 % 65536 = 0 ∧ end_addr 70000 300 % 65536 = 0 :=
  C1_erase_range 70000 300 (by decide) (by decide) (by decide)

/-! ## The program loop -/

theorem tmod_256 (a : Int) :
    Int.tmod a 256 = if 0 ≤ a ∨ a % 256 = 0 then a % 256 else a % 256 - 256 := by
  cases a with
  | ofNat m =>
    have h : 0 ≤ Int.ofNat m := Int.ofNat_nonneg m
    rw [Int.tmod_eq_emod h (show (0 : Int) ≤ 256 by decide)]
    simp [h]
  | negSucc m =>
    have h : Int.tmod (Int.negSucc m) 256 = -(((m + 1) % 256 : Nat) : Int) := rfl
    rw [h, Int.negSucc_eq]
    split_ifs with h3 <;> omega

theorem progs_append (l1 l2 : List Call) : progs (l1 ++ l2) = progs l1 ++ progs l2 := by
  induction l1 with
  | nil => rfl
  | cons c l ih => cases c <;> simp [progs, ih]

theorem prog_loop_nil (o : Int) (fuel : Nat) (addr : Int) : prog_loop o fuel addr [] = [] := by
  cases fuel <;> simp [prog_loop]

theorem page_pos (a : Int) : 1 ≤ page a ∧ page a ≤ 511 := by
  unfold page
  rw [tmod_256]
  split_ifs <;> omega

/-- For a non-negative or page-aligned target address the chunk size is the
distance to the next page boundary. -/
theorem page_eq (a : Int) (h : 0 ≤ a ∨ a % 256 = 0) : (page a : Int) = 256 - a % 256 := by
  unfold page
  rw [tmod_256, if_pos h]
  omega

theorem prog_loop_cons (o : Int) (fuel : Nat) (addr : Int) (b : uint8_t) (f : List uint8_t) :
    prog_loop o (fuel + 1) addr (b :: f)
      = [.flash_write_enable,
          .flash_prog (wrap32 (o + addr)) ((b :: f).take (page (wrap32 (o + addr)))),
          .flash_wait]
        ++ prog_loop o fuel (wrap32 (addr + ((b :: f).take (page (wrap32 (o + addr)))).length))
            ((b :: f).drop (page (wrap32 (o + addr)))) := by
  have hp := page_pos (wrap32 (o + addr))
  obtain ⟨p, hp2⟩ : ∃ p, page (wrap32 (o + addr)) = p + 1 := ⟨page (wrap32 (o + addr)) - 1, by omega⟩
  simp only [prog_loop]
  rw [if_neg]
  rw [hp2]
  simp
  omega

/-- Once the target address is page-aligned, every further chunk starts on a
page boundary and holds at most one page. -/
theorem prog_loop_aligned (o : Int) : ∀ (fuel : Nat) (addr : Int) (f : List uint8_t),
    wrap32 (o + addr) % 256 = 0 →
    ∀ c ∈ progs (prog_loop o fuel addr f), c.1 % 256 = 0 ∧ c.2.length ≤ 256 := by
  intro fuel
  induction fuel with
  | zero => intro addr f _ c hc; simp [prog_loop, progs] at hc
  | succ fuel ih =>
    intro addr f h c hc
    cases f with
    | nil => simp [prog_loop_nil, progs] at hc
    | cons b f =>
      have hp := page_eq (wrap32 (o + addr)) (Or.inr h)
      rw [prog_loop_cons, progs_append] at hc
      simp only [progs, List.cons_append, List.nil_append, List.mem_cons] at hc
      rcases hc with rfl | hc
      · refine ⟨h, ?_⟩
        simp only [List.length_take]
        omega
      · by_cases hl : page (wrap32 (o + addr)) ≤ (b :: f).length
        · refine ih _ _ ?_ c hc
          rw [List.length_take, Nat.min_eq_left hl]
          simp only [wrap32] at h hp ⊢
          omega
        · rw [List.drop_eq_nil_of_le (by omega), prog_loop_nil] at hc
          simp [progs] at hc


/-- Every chunk of the program loop is sent to `rw_offset + addr` plus the
number of bytes of the chunks before it, as a 32-bit `int`. -/
theorem prog_loop_addr (o : Int) : ∀ (fuel : Nat) (addr : Int) (f : List uint8_t)
    (pre : List (Int × List uint8_t)) (c : Int × List uint8_t) (post : List (Int × List uint8_t)),
    progs (prog_loop o fuel addr f) = pre ++ c :: post →
    c.1 = wrap32 (o + addr + ((pre.map (fun p => p.2.length)).sum : Nat)) := by
  intro fuel
  induction fuel with
  | zero => intro addr f pre c post h; simp [prog_loop, progs] at h
  | succ fuel ih =>
    intro addr f pre c post h
    cases f with
    | nil => simp [prog_loop_nil, progs] at h
    | cons b f =>
      rw [prog_loop_cons, progs_append] at h
      simp only [progs, List.cons_append, List.nil_append] at h
      cases pre with
      | nil =>
        simp only [List.nil_append, List.cons.injEq] at h
        rw [← h.1]
        simp
      | cons x pre =>
        simp only [List.cons_append, List.cons.injEq] at h
        have := ih _ _ pre c post h.2
        rw [this, ← h.1]
        simp only [List.map_cons, List.sum_cons, wrap32]
        push_cast
        omega

/-- The program loop ends by itself once the input is used up: any fuel above
the length of the input gives the same calls. -/
theorem prog_loop_fuel (o : Int) : ∀ (fuel1 fuel2 : Nat) (addr : Int) (f : List uint8_t),
    f.length < fuel1 → f.length < fuel2 → prog_loop o fuel1 addr f = prog_loop o fuel2 addr f := by
  intro fuel1
  induction fuel1 with
  | zero => intro fuel2 addr f h; omega
  | succ fuel1 ih =>
    intro fuel2 addr f h1 h2
    cases f with
    | nil => rw [prog_loop_nil, prog_loop_nil]
    | cons b f =>
      obtain ⟨k, rfl⟩ : ∃ k, fuel2 = k + 1 := ⟨fuel2 - 1, by omega⟩
      have hp := page_pos (wrap32 (o + addr))
      rw [prog_loop_cons, prog_loop_cons]
      congr 1
      apply ih
      · rw [List.length_drop]; simp only [List.length_cons] at h1 ⊢; omega
      · rw [List.length_drop]; simp only [List.length_cons] at h2 ⊢; omega

theorem progs_erase_loop (e : Int) : ∀ (fuel : Nat) (addr : Int),
    progs (erase_loop e fuel addr) = [] := by
  intro fuel
  induction fuel with
  | zero => intro addr; rfl
  | succ fuel ih =>
    intro addr
    simp only [erase_loop]
    split_ifs
    · simp [progs, ih]
    · rfl

/-- The erase phase programs nothing: the chunks of the write path are those of
the program loop. -/
theorem progs_write_path (dont_erase bulk_erase : Bool) (o s : Int) (f : List uint8_t) :
    progs (write_path dont_erase bulk_erase o s f) = progs (prog_loop o (f.length + 1) 0 f) := by
  unfold write_path erase_phase
  rw [progs_append]
  split_ifs
  · rfl
  · rfl
  · rw [progs_erase_loop]; rfl

/-! ## C2: chunks and page boundaries -/

set_option maxRecDepth 100000 in
/-- C2, as stated, fails for a negative write offset: at offset `-1` the program
loop asks `fread` for `256 - (-1 % 256) = 257` bytes and passes all 257 bytes of
the file to one `flash_prog` at address `-1`, more than the one byte left in the
page of that address and more than a page holds. -/
theorem C2_negative_offset_chunk :
    progs (write_path false false (-1) 257 (List.replicate 257 0))
        = [(-1, List.replicate 257 0)]
      ∧ ¬ (((List.replicate 257 (0 : uint8_t)).length : Int) ≤ 256 - (-1) % 256)
      ∧ 256 < (List.replicate 257 (0 : uint8_t)).length := by
  rw [progs_write_path]
  decide

/-- C2, amended: for every non-negative write offset and every input file, each
chunk the program loop of `main` passes to `flash_prog` at target address `a`
has length at most `256 - (a mod 256)`, so that it stays within one 256-byte
page, and every chunk after the first starts at a multiple of 256; the address
of a chunk is the write offset plus the bytes consumed so far, as an `int`. -/
theorem C2_page_chunks (dont_erase bulk_erase : Bool) (rw_offset st_size : Int)
    (f : List uint8_t) (h0 : 0 ≤ rw_offset) (h1 : rw_offset < 2147483648) :
    (∀ c ∈ progs (write_path dont_erase bulk_erase rw_offset st_size f),
        (c.2.length : Int) ≤ 256 - c.1 % 256)
      ∧ (∀ c ∈ (progs (write_path dont_erase bulk_erase rw_offset st_size f)).tail,
          c.1 % 256 = 0)
      ∧ (∀ pre c post,
          progs (write_path dont_erase bulk_erase rw_offset st_size f) = pre ++ c :: post →
          c.1 = wrap32 (rw_offset + ((pre.map (fun p => p.2.length)).sum : Nat))) := by
  rw [progs_write_path]
  refine ⟨?_, ?_, fun pre c post h => by
    rw [prog_loop_addr rw_offset _ _ _ pre c post h, Int.add_zero]⟩
  all_goals cases f with
  | nil => simp [prog_loop_nil, progs]
  | cons b f =>
    have hw : wrap32 (rw_offset + 0) = rw_offset := by simp only [wrap32]; omega
    have hp := page_eq rw_offset (Or.inl h0)
    rw [prog_loop_cons, progs_append, hw]
    simp only [progs, List.cons_append, List.nil_append, List.tail_cons, List.mem_cons]
    have hrest : ∀ c ∈ progs (prog_loop rw_offset (b :: f).length
        (wrap32 (0 + ((b :: f).take (page rw_offset)).length)) ((b :: f).drop (page rw_offset))),
        c.1 % 256 = 0 ∧ c.2.length ≤ 256 := by
      intro c hc
      by_cases hl : page rw_offset ≤ (b :: f).length
      · refine prog_loop_aligned rw_offset _ _ _ ?_ c hc
        rw [List.length_take, Nat.min_eq_left hl]
        simp only [wrap32]
        omega
      · rw [List.drop_eq_nil_of_le (by omega), prog_loop_nil] at hc
        simp [progs] at hc
    first
    | (intro c hc
       rcases hc with rfl | hc
       · simp only [List.length_take]
         omega
       · have := hrest c hc
         omega)
    | (intro c hc
       exact (hrest c hc).1)

/-- C2, amended, at offset 200 with a file of 300 bytes. -/
theorem C2_page_chunks_witness :
    (∀ c ∈ progs (write_path false false 200 300 (List.replicate 300 0)),
        (c.2.length : Int) ≤ 256 - c.1 % 256)
      ∧ (∀ c ∈ (progs (write_path false false 200 300 (List.replicate 300 0))).tail,
          c.1 % 256 = 0) :=
  ⟨(C2_page_chunks false false 200 300 (List.replicate 300 0) (by decide) (by decide)).1,
   (C2_page_chunks false false 200 300 (List.replicate 300 0) (by decide) (by decide)).2.1⟩


/-! ## The flash device under the calls of the program -/

/-- The flash address the three address bytes of a command stand for: the
argument `addr` reduced to 24 bits. -/
theorem be24_command (addr : Int) :
    be24 (u8 (addr >>> (16 : Nat))) (u8 (addr >>> (8 : Nat))) (u8 addr) = (addr % 16777216).toNat := by
  have h16 : addr >>> (16 : Nat) = addr / 65536 := by
    rw [Int.shiftRight_eq_div_pow]; norm_num
  have h8 : addr >>> (8 : Nat) = addr / 256 := by
    rw [Int.shiftRight_eq_div_pow]; norm_num
  rw [h16, h8]
  simp only [be24, u8]
  omega

theorem run_append (mem : Flash) (l1 l2 : List Call) :
    Flash.run mem (l1 ++ l2) = Flash.run (Flash.run mem l1) l2 := by
  simp [Flash.run, List.foldl_append]

theorem run_prog_step (mem : Flash) (a : Int) (data : List uint8_t) :
    Flash.run mem [.flash_write_enable, .flash_prog a data, .flash_wait]
      = Flash.store data mem (a % 16777216).toNat := by
  simp only [Flash.run, List.foldl, Call.ops, flash_write_enable, flash_prog, flash_wait_poll,
    mosi, command, Flash.exec, List.append_nil, List.cons_append, List.nil_append]
  rw [be24_command]
  rfl


/-- A page program leaves every cell outside the addresses it runs over as it
was. -/
theorem store_frame : ∀ (data : List uint8_t) (mem : Flash) (a x : Nat),
    (∀ j, j < data.length → (a + j) % 16777216 ≠ x) →
    (Flash.store data mem a).cell x = mem.cell x := by
  intro data
  induction data with
  | nil => intro mem a x _; rfl
  | cons b rest ih =>
    intro mem a x h
    simp only [Flash.store]
    rw [ih]
    · have h0 := h 0 (by simp)
      simp only [Nat.add_zero] at h0
      exact Function.update_noteq (Ne.symm h0) _ _
    · intro j hj
      have := h (j + 1) (by simp; omega)
      rwa [Nat.add_assoc, Nat.add_comm 1 j]

/-- A page program leaves byte `i` of its payload at address `a + i`, provided
the address counter does not come round to that cell again. -/
theorem store_cell : ∀ (data : List uint8_t) (mem : Flash) (a i : Nat) (h : i < data.length),
    data.length - i ≤ 16777216 →
    (Flash.store data mem a).cell ((a + i) % 16777216) = data[i] := by
  intro data
  induction data with
  | nil => intro mem a i h; simp at h
  | cons b rest ih =>
    intro mem a i h hM
    simp only [Flash.store]
    cases i with
    | zero =>
      rw [store_frame]
      · simp
      · intro j hj
        simp only [List.length_cons] at hM
        omega
    | succ i =>
      have h2 : i < rest.length := by simpa using h
      have := ih ⟨Function.update mem.cell (a % 16777216) b⟩ (a + 1) i h2
        (by simp only [List.length_cons] at hM; omega)
      rw [show a + (i + 1) = a + 1 + i by omega]
      simpa using this

/-- The effect of the program loop on the flash: byte `i` of the input ends up
at address `rw_offset + addr + i` (reduced to 24 bits) unless a later byte is
sent to the same cell, and cells outside the programmed addresses keep their
content. -/
theorem run_prog_loop (o : Int) : ∀ (fuel : Nat) (addr : Int) (f : List uint8_t) (mem : Flash),
    f.length < fuel →
    (∀ i (h : i < f.length), f.length - i ≤ 16777216 →
        (Flash.run mem (prog_loop o fuel addr f)).cell ((o + addr + i) % 16777216).toNat = f[i])
      ∧ (∀ x, (∀ i, i < f.length → ((o + addr + i) % 16777216).toNat ≠ x) →
          (Flash.run mem (prog_loop o fuel addr f)).cell x = mem.cell x) := by
  intro fuel
  induction fuel with
  | zero => intro addr f mem h; omega
  | succ fuel ih =>
    intro addr f mem hfuel
    cases f with
    | nil =>
      rw [prog_loop_nil]
      exact ⟨fun i h => by simp at h, fun x _ => rfl⟩
    | cons b f =>
      have hp := page_pos (wrap32 (o + addr))
      rw [prog_loop_cons, run_append, run_prog_step]
      set p := page (wrap32 (o + addr)) with hpdef
      set chunk := (b :: f).take p with hchunk
      set rest := (b :: f).drop p with hrest
      have hlen : chunk.length + rest.length = (b :: f).length := by
        rw [hchunk, hrest, List.length_take, List.length_drop]; omega
      have hc1 : 1 ≤ chunk.length := by
        rw [hchunk, List.length_take]
        simp only [List.length_cons]
        omega
      have hc2 : chunk.length ≤ p := by
        rw [hchunk, List.length_take]; omega
      have hA : ∀ k : Int,
          ((o + wrap32 (addr + chunk.length) + k) % 16777216)
            = ((o + addr + chunk.length + k) % 16777216) := by
        intro k; simp only [wrap32]; omega
      have hB : (wrap32 (o + addr) % 16777216) = ((o + addr) % 16777216) := by
        simp only [wrap32]; omega
      obtain ⟨ih1, ih2⟩ := ih (wrap32 (addr + chunk.length)) rest
        (Flash.store chunk mem (wrap32 (o + addr) % 16777216).toNat) (by omega)
      constructor
      · intro i hi hM
        by_cases hic : i < chunk.length
        · rw [ih2]
          · have := store_cell chunk mem (wrap32 (o + addr) % 16777216).toNat i hic (by omega)
            have hidx : ((wrap32 (o + addr) % 16777216).toNat + i) % 16777216
                = ((o + addr + i) % 16777216).toNat := by
              rw [hB]; omega
            rw [hidx] at this
            rw [this]
            simp only [hchunk, List.getElem_take]
          · intro j hj
            rw [hA]
            omega
        · have hi2 : i - chunk.length < rest.length := by omega
          have := ih1 (i - chunk.length) hi2 (by omega)
          rw [hA] at this
          have hidx : o + addr + chunk.length + ((i - chunk.length : Nat) : Int) = o + addr + i := by
            omega
          rw [hidx] at this
          rw [this]
          simp only [hrest, List.getElem_drop]
          congr 1
          have : chunk.length = p := by
            rw [hchunk, List.length_take] at hic ⊢
            rw [hchunk, List.length_take] at hi2
            omega
          omega
      · intro x hx
        rw [ih2]
        · apply store_frame
          intro j hj
          have := hx j (by omega)
          rw [hB]
          omega
        · intro j hj
          have := hx (chunk.length + j) (by omega)
          rw [hA]
          push_cast at this
          omega


/-- Up to 65536 bytes the length bytes of a transfer say the length itself. -/
theorem framed_length_of_le (n : Nat) (h : n ≤ 65536) : framed_length n = n := by
  have h8 : ∀ x : Int, x >>> (8 : Nat) = x / 256 := by
    intro x; rw [Int.shiftRight_eq_div_pow]; norm_num
  unfold framed_length
  split_ifs with h0
  · omega
  · rw [h8]
    simp only [u8]
    omega

theorem flash_read_data_eq (mem : Flash) (addr : Int) (n : Nat) :
    flash_read_data mem addr n = mem.load (addr % 16777216).toNat (framed_length n) := by
  simp only [flash_read_data, flash_read, mosi, command, Flash.reply, List.append_nil,
    List.cons_append, List.nil_append, List.length_replicate]
  rw [be24_command]
  rfl

/-- Reading back after the write path: byte `i` of the data read from
`rw_offset` with one `flash_read` of at most 65536 bytes is byte `i` of the
input. -/
theorem read_back_getElem (mem : Flash) (dont_erase bulk_erase : Bool) (o s : Int)
    (B : List uint8_t) (i : Nat) (h : i < B.length) (hB : B.length ≤ 65536) :
    (flash_read_data (Flash.run mem (write_path dont_erase bulk_erase o s B)) o B.length)[i]?
      = some B[i] := by
  rw [flash_read_data_eq, framed_length_of_le _ hB, write_path, run_append]
  have := (run_prog_loop o (B.length + 1) 0 B
    (Flash.run mem (erase_phase dont_erase bulk_erase o s)) (by omega)).1 i h (by omega)
  simp only [Flash.load]
  rw [List.getElem?_map, List.getElem?_range h]
  simp only [Option.map_some']
  rw [← this]
  congr 2
  omega

/-- For a non-negative write offset every chunk of the program loop fits the
256 bytes of `buffer`. -/
theorem prog_chunks_fit_buffer (o : Int) (f : List uint8_t) (h0 : 0 ≤ o)
    (h1 : o < 2147483648) :
    ∀ c ∈ progs (prog_loop o (f.length + 1) 0 f), c.2.length ≤ 256 := by
  cases f with
  | nil => simp [prog_loop_nil, progs]
  | cons b f =>
    have hw : wrap32 (o + 0) = o := by simp only [wrap32]; omega
    have hp := page_eq o (Or.inl h0)
    rw [prog_loop_cons, progs_append, hw]
    simp only [progs, List.cons_append, List.nil_append, List.mem_cons]
    intro c hc
    rcases hc with rfl | hc
    · simp only [List.length_take]
      omega
    · by_cases hl : page o ≤ (b :: f).length
      · refine (prog_loop_aligned o _ _ _ ?_ c hc).2
        rw [List.length_take, Nat.min_eq_left hl]
        simp only [wrap32]
        omega
      · rw [List.drop_eq_nil_of_le (by omega), prog_loop_nil] at hc
        simp [progs] at hc

/-! ## C3: round trip through the flash -/

/-- C3, as stated, fails for an input of more than 65536 bytes: the length
bytes of `xfer_spi` carry only 16 bits of `n - 1`, so for the 65537 bytes
written at offset 0 (bulk erase first) the one `flash_read` of 65537 bytes
announces a transfer of a single byte, and one byte of flash content is all
that is read back. -/
theorem C3_read_beyond_frame :
    (List.replicate 65537 (1 : uint8_t)).length = 65537
      ∧ (u8 (65537 - 1)).val = 0 ∧ (u8 ((65537 - 1) >>> (8 : Nat))).val = 0
      ∧ (flash_read_data
          (Flash.run ⟨fun _ => 0⟩
            (write_path false true 0 (List.replicate 65537 (1 : uint8_t)).length
              (List.replicate 65537 1)))
          0 (List.replicate 65537 (1 : uint8_t)).length).length = 1 := by
  refine ⟨List.length_replicate _ _, by decide, by decide, ?_⟩
  rw [flash_read_data_eq, List.length_replicate]
  simp only [Flash.load, List.length_map, List.length_range]
  decide

/-- C3, amended: over the flash model (erase sets a block to `0xFF`, page
program stores the payload at its address), for every non-negative offset `o`
and every byte sequence `B` of at most 65536 bytes (what one `flash_read`
transfer can announce), running the write path of `main` with erase enabled
(targeted or bulk) on `B` at `o` and then reading `len(B)` bytes from `o` with
`flash_read` yields exactly `B`, whatever the flash held before; every chunk
of the write path fits the 256 bytes of `buffer`. -/
theorem C3_round_trip (mem : Flash) (bulk_erase : Bool) (rw_offset : Int) (B : List uint8_t)
    (h0 : 0 ≤ rw_offset) (h1 : rw_offset < 2147483648) (hB : B.length ≤ 65536) :
    (∀ c ∈ progs (write_path false bulk_erase rw_offset B.length B), c.2.length ≤ 256)
      ∧ flash_read_data (Flash.run mem (write_path false bulk_erase rw_offset B.length B))
          rw_offset B.length = B := by
  refine ⟨by rw [progs_write_path]; exact prog_chunks_fit_buffer rw_offset B h0 h1, ?_⟩
  apply List.ext_getElem?
  intro i
  by_cases h : i < B.length
  · rw [read_back_getElem mem false bulk_erase rw_offset B.length B i h hB]
    simp [h]
  · have hl : (flash_read_data (Flash.run mem (write_path false bulk_erase rw_offset B.length B))
        rw_offset B.length).length = B.length := by
      rw [flash_read_data_eq, framed_length_of_le _ hB]; simp [Flash.load]
    rw [List.getElem?_eq_none (by omega), List.getElem?_eq_none (by omega)]

/-- C3, amended, for three bytes written at offset 255 with targeted erase,
across a page boundary. -/
theorem C3_round_trip_witness :
    flash_read_data
        (Flash.run ⟨fun _ => 0⟩
          (write_path false false 255 ([1, 2, 3] : List uint8_t).length [1, 2, 3]))
        255 ([1, 2, 3] : List uint8_t).length
      = [1, 2, 3] :=
  (C3_round_trip ⟨fun _ => 0⟩ false 255 [1, 2, 3] (by decide) (by decide) (by decide)).2

/-! ## The vector swap -/

/-- The buffer `change_vector` returns, cell by cell, in terms of the two
record offsets it computes. -/
theorem change_vector_apply (vector boot : Nat) (buffer : Nat → uint8_t) (x : Nat) :
    change_vector vector boot buffer x
      = if u32 (vector * 0x20) + 9 ≤ x ∧ x ≤ u32 (vector * 0x20) + 11
          then buffer (u32 (boot * 0x20) + (x - u32 (vector * 0x20)))
        else if u32 (boot * 0x20) + 9 ≤ x ∧ x ≤ u32 (boot * 0x20) + 11
          then buffer (u32 (vector * 0x20) + (x - u32 (boot * 0x20)))
        else buffer x := by
  have hA : ∀ k, k < 32 → u32 (u32 (boot * 0x20) + k) = u32 (boot * 0x20) + k := by
    intro k hk; simp only [u32]; omega
  have hV : ∀ k, k < 32 → u32 (u32 (vector * 0x20) + k) = u32 (vector * 0x20) + k := by
    intro k hk; simp only [u32]; omega
  have hAV : u32 (boot * 0x20) % 32 = 0 ∧ u32 (vector * 0x20) % 32 = 0 := by
    simp only [u32]; omega
  simp only [change_vector, hA 9 (by omega), hA 10 (by omega), hA 11 (by omega),
    hV 9 (by omega), hV 10 (by omega), hV 11 (by omega), Function.update_apply]
  generalize u32 (boot * 0x20) = A at hAV ⊢
  generalize u32 (vector * 0x20) = V at hAV ⊢
  split_ifs <;> first | rfl | omega | (congr 1; omega)


/-! ## C4: what the swap changes and what it leaves -/

/-- C4: for every shadow buffer and every pair of indices `i`, `j` of records
lying in the shadow buffer (`uint8_t buffer[0x001100]`), `change_vector(i, j, .)`
yields a buffer whose bytes `32*i+9 .. 32*i+11` are the former bytes
`32*j+9 .. 32*j+11`, whose bytes `32*j+9 .. 32*j+11` are the former bytes
`32*i+9 .. 32*i+11`, and whose other bytes are unchanged; swapping records 0
and 2 holding `0x008000` and `0x000100` leaves record 0 with `0x000100` and
record 2 with `0x008000`. -/
theorem C4_change_vector_swap (buffer : Nat → uint8_t) (i j : Nat)
    (hi : 32 * i + 11 < 0x1100) (hj : 32 * j + 11 < 0x1100) :
    (∀ k, k < 3 → change_vector i j buffer (32 * i + 9 + k) = buffer (32 * j + 9 + k))
      ∧ (∀ k, k < 3 → change_vector i j buffer (32 * j + 9 + k) = buffer (32 * i + 9 + k))
      ∧ (∀ x, ¬ (32 * i + 9 ≤ x ∧ x ≤ 32 * i + 11) → ¬ (32 * j + 9 ≤ x ∧ x ≤ 32 * j + 11) →
          change_vector i j buffer x = buffer x)
      ∧ (vector_at buffer 0 = 0x008000 → vector_at buffer 64 = 0x000100 →
          vector_at (change_vector 0 2 buffer) 0 = 0x000100
            ∧ vector_at (change_vector 0 2 buffer) 64 = 0x008000) := by
  have hI : u32 (i * 0x20) = 32 * i := by simp only [u32]; omega
  have hJ : u32 (j * 0x20) = 32 * j := by simp only [u32]; omega
  refine ⟨?_, ?_, ?_, ?_⟩
  · intro k hk
    rw [change_vector_apply, hI, hJ, if_pos (by omega)]
    congr 1
    omega
  · intro k hk
    rw [change_vector_apply, hI, hJ]
    split_ifs with h1 h2
    · congr 1; omega
    · congr 1; omega
    · omega
  · intro x h1 h2
    rw [change_vector_apply, hI, hJ, if_neg h1, if_neg h2]
  · intro h0 h2
    have e0 : u32 (0 * 0x20) = 0 := by decide
    have e2 : u32 (2 * 0x20) = 64 := by decide
    simp only [vector_at, change_vector_apply, e0, e2] at h0 h2 ⊢
    norm_num at h0 h2 ⊢
    exact ⟨h2, h0⟩

/-- C4 at the table of the scenario: record 0 holds `0x008000` (byte 10 is
`0x80`), record 2 holds `0x000100` (byte 74 is `0x01`); after the swap record 0
holds `0x000100` and record 2 holds `0x008000`. -/
theorem C4_change_vector_swap_witness :
    vector_at (change_vector 0 2 (fun k => if k = 10 then 0x80 else if k = 74 then 0x01 else 0)) 0
        = 0x000100
      ∧ vector_at
          (change_vector 0 2 (fun k => if k = 10 then 0x80 else if k = 74 then 0x01 else 0)) 64
        = 0x008000 :=
  (C4_change_vector_swap (fun k => if k = 10 then 0x80 else if k = 74 then 0x01 else 0) 0 2
    (by decide) (by decide)).2.2.2 (by decide) (by decide)

/-! ## C5: swapping twice -/

/-- C5: for every shadow buffer and every pair of record indices `i`, `j`, equal
or not, applying `change_vector(i, j, .)` twice gives back the original buffer,
byte for byte. -/
theorem C5_change_vector_twice (buffer : Nat → uint8_t) (i j : Nat) :
    change_vector i j (change_vector i j buffer) = buffer := by
  funext x
  have hAV : u32 (j * 0x20) % 32 = 0 ∧ u32 (i * 0x20) % 32 = 0 := by
    simp only [u32]; omega
  simp only [change_vector_apply]
  generalize u32 (j * 0x20) = A at hAV ⊢
  generalize u32 (i * 0x20) = V at hAV ⊢
  split_ifs <;> first | rfl | omega | (congr 1; omega)

/-! ## C6: the index guard of the swap -/

/-- C6 at its failing input: the guard of `main` lets the index
`NUM_VECTORS = 10` through, although the records of the table are
`0 .. NUM_VECTORS - 1`; `test_change_vectors(10, 0)` is called and erases and
reprograms the subsector.  Indices above `NUM_VECTORS` are turned away with no
flash routine called. -/
theorem C6_index_ten_accepted (buffer : Nat → uint8_t) :
    ¬ (10 < NUM_VECTORS)
      ∧ main_change_vectors 10 0 buffer = test_change_vectors 10 0 buffer
      ∧ Call.flash_4kB_subsector_erase 0 ∈ main_change_vectors 10 0 buffer
      ∧ (∀ vector1 vector2, NUM_VECTORS < vector1 ∨ NUM_VECTORS < vector2 →
          main_change_vectors vector1 vector2 buffer = []) := by
  refine ⟨by decide, rfl, ?_, ?_⟩
  · simp [main_change_vectors, vectors_accepted, NUM_VECTORS, test_change_vectors, commit]
  · intro v1 v2 h
    simp only [main_change_vectors, vectors_accepted, NUM_VECTORS] at h ⊢
    rw [if_neg]
    simp only [Bool.and_eq_true, decide_eq_true_eq]
    omega


/-! ## C7: the table scan -/

theorem vector_at_eq (buffer : Nat → uint8_t) (offset : Nat) :
    vector_at buffer offset
      = (buffer (offset + 9)).val * 65536 + (buffer (offset + 10)).val * 256
        + (buffer (offset + 11)).val := by
  simp only [vector_at, Nat.shiftLeft_eq]

theorem vector_at_lt (buffer : Nat → uint8_t) (offset : Nat) :
    vector_at buffer offset < 16777216 := by
  rw [vector_at_eq]
  have h1 := (buffer (offset + 9)).isLt
  have h2 := (buffer (offset + 10)).isLt
  have h3 := (buffer (offset + 11)).isLt
  omega

/-- The record loop, started at record `i` with enough rounds left, reports the
records from `i` up to the first one without the marker, or up to record 49. -/
theorem vector_loop_spec (buffer : Nat → uint8_t) : ∀ (fuel i : Nat), i + fuel = 50 →
    ∃ k, i ≤ k ∧ k ≤ 50
      ∧ (∀ r, i ≤ r → r < k → buffer (32 * r) = 0x7E ∧ buffer (32 * r + 1) = 0xAA)
      ∧ (k < 50 → ¬ (buffer (32 * k) = 0x7E ∧ buffer (32 * k + 1) = 0xAA))
      ∧ vector_loop buffer fuel i (32 * i)
          = (List.range' i (k - i)).map (fun r => (r, vector_at buffer (32 * r))) := by
  intro fuel
  induction fuel with
  | zero =>
    intro i h
    exact ⟨i, le_refl i, by omega, fun r h1 h2 => by omega, fun h2 => by omega, by simp [vector_loop]⟩
  | succ fuel ih =>
    intro i h
    have hi : i < 50 := by omega
    by_cases hm : buffer (32 * i) = 0x7E ∧ buffer (32 * i + 1) = 0xAA
    · obtain ⟨k, hk1, hk2, hk3, hk4, hk5⟩ := ih (i + 1) (by omega)
      refine ⟨k, by omega, hk2, ?_, hk4, ?_⟩
      · intro r hr1 hr2
        by_cases hr : r = i
        · rw [hr]; exact hm
        · exact hk3 r (by omega) hr2
      · have e : 32 * i + 0x20 = 32 * (i + 1) := by omega
        have e2 : k - i = (k - (i + 1)) + 1 := by omega
        simp only [vector_loop, if_pos hi, if_pos hm, e, hk5]
        rw [e2, List.range'_succ]
        rfl
    · refine ⟨i, le_refl i, by omega, fun r h1 h2 => by omega, fun _ => hm, ?_⟩
      simp [vector_loop, if_pos hi, if_neg hm]

/-- C7: for every content of the shadow buffer the scan of `test_get_vectors`
reports exactly the records `0 .. k-1`, where `k` is the index of the first
32-byte record whose first two bytes are not `0x7E 0xAA`, or 50 when the first
50 records all carry the marker; the target reported for record `r` is the
big-endian value of bytes `32*r+9 .. 32*r+11`, below `2^24`; a buffer whose
record 0 lacks the marker yields no record. -/
theorem C7_get_vectors_scan (buffer : Nat → uint8_t) :
    ∃ k, k ≤ 50
      ∧ (∀ r, r < k → buffer (32 * r) = 0x7E ∧ buffer (32 * r + 1) = 0xAA)
      ∧ (k < 50 → ¬ (buffer (32 * k) = 0x7E ∧ buffer (32 * k + 1) = 0xAA))
      ∧ get_vectors buffer
          = (List.range k).map (fun r =>
              (r, (buffer (32 * r + 9)).val * 65536 + (buffer (32 * r + 10)).val * 256
                    + (buffer (32 * r + 11)).val))
      ∧ (∀ e ∈ get_vectors buffer, e.2 < 2 ^ 24)
      ∧ (¬ (buffer 0 = 0x7E ∧ buffer 1 = 0xAA) → get_vectors buffer = []) := by
  obtain ⟨k, _, hk2, hk3, hk4, hk5⟩ := vector_loop_spec buffer 50 0 rfl
  have hg : get_vectors buffer
      = (List.range k).map (fun r => (r, vector_at buffer (32 * r))) := by
    rw [get_vectors, List.range_eq_range']
    exact hk5
  refine ⟨k, hk2, fun r hr => hk3 r (Nat.zero_le r) hr, hk4, ?_, ?_, ?_⟩
  · rw [hg]
    simp only [vector_at_eq]
  · intro e he
    rw [hg] at he
    obtain ⟨r, _, rfl⟩ := List.mem_map.1 he
    exact vector_at_lt buffer _
  · intro h
    have hk0 : k = 0 := by
      by_contra hne
      exact h (hk3 0 (le_refl 0) (by omega))
    rw [hg, hk0]
    rfl


/-! ## C8: the commit path -/

theorem commit_eq (buffer : Nat → uint8_t) :
    commit buffer
      = [.flash_write_enable, .flash_4kB_subsector_erase 0, .flash_wait]
        ++ (List.range 16).flatMap (fun k =>
            [.flash_write_enable, .flash_prog (256 * (k : Int)) (slice buffer (256 * k) 256),
              .flash_wait]) := by
  rfl

theorem slice_append (buffer : Nat → uint8_t) (a n m : Nat) :
    slice buffer a n ++ slice buffer (a + n) m = slice buffer a (n + m) := by
  simp only [slice, List.range_add, List.map_append, List.map_map]
  congr 1
  apply List.map_congr_left
  intro k _
  simp [Nat.add_assoc]

theorem commit_loop_done (buffer : Nat → uint8_t) (fuel addr : Nat) (h : 0x1000 ≤ addr) :
    commit_loop buffer 256 0x1000 fuel addr = [] := by
  cases fuel with
  | zero => rfl
  | succ k =>
    simp only [commit_loop]
    rw [if_neg (by omega)]

/-- The fuel given to the page loop of the commit path is enough: from 16
rounds on the result is the same. -/
theorem commit_loop_fuel (buffer : Nat → uint8_t) (fuel : Nat) (hfuel : 16 ≤ fuel) :
    commit_loop buffer 256 0x1000 fuel 0 = commit_loop buffer 256 0x1000 0x1000 0 := by
  obtain ⟨k, rfl⟩ : ∃ k, fuel = k + 16 := ⟨fuel - 16, by omega⟩
  have h1 : commit_loop buffer 256 0x1000 (k + 16) 0
      = (List.range 16).flatMap (fun j =>
            [.flash_write_enable, .flash_prog (256 * (j : Int)) (slice buffer (256 * j) 256),
              .flash_wait])
          ++ commit_loop buffer 256 0x1000 k 0x1000 := rfl
  rw [h1, commit_loop_done buffer k 0x1000 (le_refl _)]
  rfl

theorem slice_zero (buffer : Nat → uint8_t) (n : Nat) :
    slice buffer 0 n = (List.range n).map buffer := by
  simp only [slice, Nat.zero_add]

/-- C8: for every shadow buffer, the commit path of `test_change_vectors` issues
one 4 KiB subsector erase at address 0 and then 16 page-program commands at
addresses 0, 256, ..., 3840 in ascending order, each with 256 bytes, whose
payloads together are bytes 0..4095 of the shadow buffer as `change_vector`
left it: byte `j` of the page at `256*k` is byte `256*k + j` of that buffer. -/
theorem C8_commit_path (vector1 vector2 : Nat) (buffer : Nat → uint8_t) :
    test_change_vectors vector1 vector2 buffer
        = [.flash_power_up, .flash_read_id, .flash_read 0 0x1000,
            .flash_write_enable, .flash_4kB_subsector_erase 0, .flash_wait]
          ++ (List.range 16).flatMap (fun k =>
              [.flash_write_enable,
                .flash_prog (256 * (k : Int))
                  ((List.range 256).map
                    (fun j => change_vector vector1 vector2 buffer (256 * k + j))),
                .flash_wait])
          ++ [.flash_power_down]
      ∧ (test_change_vectors vector1 vector2 buffer).filter
            (fun c => c.mutates && decide (c.opcode ≠ some 0x02))
          = [.flash_4kB_subsector_erase 0]
      ∧ (progs (test_change_vectors vector1 vector2 buffer)).map Prod.fst
          = (List.range 16).map (fun (k : Nat) => 256 * (k : Int))
      ∧ (∀ c ∈ progs (test_change_vectors vector1 vector2 buffer), c.2.length = 256)
      ∧ ((progs (test_change_vectors vector1 vector2 buffer)).map Prod.snd).flatten
          = (List.range 4096).map (change_vector vector1 vector2 buffer) := by
  have h : test_change_vectors vector1 vector2 buffer
        = [.flash_power_up, .flash_read_id, .flash_read 0 0x1000,
            .flash_write_enable, .flash_4kB_subsector_erase 0, .flash_wait]
          ++ (List.range 16).flatMap (fun k =>
              [.flash_write_enable,
                .flash_prog (256 * (k : Int))
                  (slice (change_vector vector1 vector2 buffer) (256 * k) 256),
                .flash_wait])
          ++ [.flash_power_down] := by
    rw [test_change_vectors, commit_eq]
    rfl
  generalize change_vector vector1 vector2 buffer = shadow at h ⊢
  rw [h]
  refine ⟨rfl, rfl, rfl, ?_, ?_⟩
  · intro c hc
    have hp : progs ([.flash_power_up, .flash_read_id, .flash_read 0 0x1000,
            .flash_write_enable, .flash_4kB_subsector_erase 0, .flash_wait]
          ++ (List.range 16).flatMap (fun k =>
              [.flash_write_enable,
                .flash_prog (256 * (k : Int)) (slice shadow (256 * k) 256),
                .flash_wait])
          ++ [.flash_power_down])
        = (List.range 16).map
            (fun (k : Nat) => ((256 : Int) * (k : Int), slice shadow (256 * k) 256)) := rfl
    rw [hp] at hc
    obtain ⟨k, _, rfl⟩ := List.mem_map.1 hc
    simp [slice]
  · have hp : ((progs ([.flash_power_up, .flash_read_id, .flash_read 0 0x1000,
            .flash_write_enable, .flash_4kB_subsector_erase 0, .flash_wait]
          ++ (List.range 16).flatMap (fun k =>
              [.flash_write_enable,
                .flash_prog (256 * (k : Int)) (slice shadow (256 * k) 256),
                .flash_wait])
          ++ [.flash_power_down])).map Prod.snd).flatten
        = slice shadow 0 256 ++ (slice shadow 256 256 ++ (slice shadow 512 256
          ++ (slice shadow 768 256 ++ (slice shadow 1024 256 ++ (slice shadow 1280 256
          ++ (slice shadow 1536 256 ++ (slice shadow 1792 256 ++ (slice shadow 2048 256
          ++ (slice shadow 2304 256 ++ (slice shadow 2560 256 ++ (slice shadow 2816 256
          ++ (slice shadow 3072 256 ++ (slice shadow 3328 256 ++ (slice shadow 3584 256
          ++ (slice shadow 3840 256 ++ []))))))))))))))) := rfl
    rw [hp, List.append_nil]
    rw [slice_append shadow 3584 256 256, slice_append shadow 3328 256 512,
      slice_append shadow 3072 256 768, slice_append shadow 2816 256 1024,
      slice_append shadow 2560 256 1280, slice_append shadow 2304 256 1536,
      slice_append shadow 2048 256 1792, slice_append shadow 1792 256 2048,
      slice_append shadow 1536 256 2304, slice_append shadow 1280 256 2560,
      slice_append shadow 1024 256 2816, slice_append shadow 768 256 3072,
      slice_append shadow 512 256 3328, slice_append shadow 256 256 3584,
      slice_append shadow 0 256 3840]
    exact slice_zero shadow _


/-! ## The sector erase loop -/

theorem sector_erases_append (l1 l2 : List Call) :
    sector_erases (l1 ++ l2) = sector_erases l1 ++ sector_erases l2 := by
  induction l1 with
  | nil => rfl
  | cons c l ih => cases c <;> simp [sector_erases, ih]

theorem sector_erases_prog_loop (o : Int) : ∀ (fuel : Nat) (addr : Int) (f : List uint8_t),
    sector_erases (prog_loop o fuel addr f) = [] := by
  intro fuel
  induction fuel with
  | zero => intro addr f; rfl
  | succ fuel ih =>
    intro addr f
    cases f with
    | nil => rw [prog_loop_nil]; rfl
    | cons b f => rw [prog_loop_cons, sector_erases_append, ih]; rfl

/-- The sector erase loop between 64 KiB-aligned bounds erases the blocks from
`addr` up to `e`, one after the other. -/
theorem sector_erases_erase_loop (e base : Int) (he : e % 65536 = 0) (he2 : e < 2147483648)
    (hb : -2147483648 ≤ base) (hb2 : base % 65536 = 0) :
    ∀ (fuel i n : Nat), (n : Int) = max 0 ((e - (base + 65536 * i)) / 65536) → n ≤ fuel →
      sector_erases (erase_loop e fuel (base + 65536 * i))
        = (List.range' i n).map (fun (k : Nat) => base + 65536 * (k : Int)) := by
  intro fuel
  induction fuel with
  | zero =>
    intro i n hn hfuel
    have : n = 0 := by omega
    rw [this]; rfl
  | succ fuel ih =>
    intro i n hn hfuel
    simp only [erase_loop]
    split_ifs with hlt
    · obtain ⟨m, rfl⟩ : ∃ m, n = m + 1 := ⟨n - 1, by omega⟩
      have hw : wrap32 (base + 65536 * (i : Int) + 0x10000) = base + 65536 * ((i + 1 : Nat) : Int) := by
        simp only [wrap32]
        push_cast
        omega
      rw [sector_erases_append, hw, ih (i + 1) m (by push_cast at hn ⊢; omega) (by omega)]
      rw [List.range'_succ]
      rfl
    · have : n = 0 := by omega
      rw [this]; rfl

theorem begin_addr_bounds (o : Int) (h1 : -2147483648 ≤ o) (h2 : o < 2147483648) :
    -2147483648 ≤ begin_addr o ∧ begin_addr o ≤ o ∧ begin_addr o % 65536 = 0 := by
  rw [begin_addr_eq]; omega

theorem end_addr_bounds (o s : Int) :
    -2147483648 ≤ end_addr o s ∧ end_addr o s < 2147483648 ∧ end_addr o s % 65536 = 0 := by
  rw [end_addr_eq]; simp only [wrap32]; omega

/-- The sector erases of the write path with targeted erase. -/
theorem sector_erases_write_path (o s : Int) (f : List uint8_t)
    (h1 : -2147483648 ≤ o) (h2 : o < 2147483648) :
    sector_erases (write_path false false o s f)
      = (List.range ((end_addr o s - begin_addr o) / 65536).toNat).map
          (fun (k : Nat) => begin_addr o + 65536 * (k : Int)) := by
  obtain ⟨hb1, hb2, hb3⟩ := begin_addr_bounds o h1 h2
  obtain ⟨he1, he2, he3⟩ := end_addr_bounds o s
  have := sector_erases_erase_loop (end_addr o s) (begin_addr o) he3 he2 hb1 hb3 65536 0
    ((end_addr o s - begin_addr o) / 65536).toNat (by push_cast; omega) (by omega)
  simp only [write_path, erase_phase, Bool.false_eq_true, if_false, sector_erases_append,
    sector_erases_prog_loop, List.append_nil]
  rw [List.range_eq_range']
  simpa using this


/-- The sector erase loop between aligned bounds ends by itself: fuel beyond the
number of blocks changes nothing. -/
theorem erase_loop_fuel (e : Int) (he : e % 65536 = 0) (he2 : e < 2147483648) :
    ∀ (fuel1 fuel2 : Nat) (addr : Int), addr % 65536 = 0 → -2147483648 ≤ addr →
      (e - addr) / 65536 ≤ fuel1 → (e - addr) / 65536 ≤ fuel2 →
      erase_loop e fuel1 addr = erase_loop e fuel2 addr := by
  intro fuel1
  induction fuel1 with
  | zero =>
    intro fuel2 addr ha1 ha2 h1 h2
    cases fuel2 with
    | zero => rfl
    | succ k =>
      simp only [erase_loop]
      rw [if_neg (by omega)]
  | succ fuel1 ih =>
    intro fuel2 addr ha1 ha2 h1 h2
    cases fuel2 with
    | zero =>
      simp only [erase_loop]
      rw [if_neg (by omega)]
    | succ k =>
      simp only [erase_loop]
      split_ifs with hlt
      · congr 1
        have hw : wrap32 (addr + 0x10000) = addr + 65536 := by
          simp only [wrap32]; omega
        rw [hw]
        apply ih <;> omega
      · rfl

/-- The fuel `main` gives the sector erase loop is enough: more changes
nothing. -/
theorem erase_phase_fuel (o s : Int) (h1 : -2147483648 ≤ o) (h2 : o < 2147483648)
    (fuel : Nat) (hfuel : 65536 ≤ fuel) :
    erase_loop (end_addr o s) fuel (begin_addr o)
      = erase_loop (end_addr o s) 65536 (begin_addr o) := by
  obtain ⟨hb1, hb2, hb3⟩ := begin_addr_bounds o h1 h2
  obtain ⟨he1, he2, he3⟩ := end_addr_bounds o s
  apply erase_loop_fuel _ he3 he2 _ _ _ hb3 hb1 <;> omega

/-! ## C9: targeted erase -/

/-- C9, as stated, fails when `rw_offset + st_size + 0xffff` leaves the range of
`int`: at offset `0x7FFF0000` with a one-byte file `end_addr` lies below
`begin_addr`, no sector erase is issued, and `(end_addr - begin_addr) / 65536`
is not 0, neither as an integer quotient nor in 32-bit arithmetic. -/
theorem C9_no_erase_on_overflow :
    sector_erases (write_path false false 2147418112 1 [0]) = []
      ∧ (end_addr 2147418112 1 - begin_addr 2147418112) / 65536 = -65535
      ∧ Int.tdiv (wrap32 (end_addr 2147418112 1 - begin_addr 2147418112)) 65536 = 1 := by
  have hb : begin_addr 2147418112 = 2147418112 := by rw [begin_addr_eq]; decide
  have he : end_addr 2147418112 1 = -2147483648 := by rw [end_addr_eq]; decide
  refine ⟨?_, ?_, ?_⟩
  · rw [sector_erases_write_path _ _ _ (by decide) (by decide), hb, he]
    decide
  · rw [hb, he]; decide
  · rw [hb, he]; decide

/-- C9, amended: in targeted erase mode, for every write offset `o` and file
size `s` for which the computed `end_addr` is not below `begin_addr` (as it is
whenever `o + s + 0xffff` stays in the range of `int`), `main` issues exactly
`(end_addr - begin_addr) / 65536` sector-erase commands, one for each 64
KiB-aligned block address `begin_addr, begin_addr + 65536, ...` below
`end_addr`, in strictly ascending order; for a 300-byte file at offset 0 this is
one erase at address 0 followed by two program commands of 256 and 44 bytes. -/
theorem C9_targeted_erase (o s : Int) (f : List uint8_t)
    (h1 : -2147483648 ≤ o) (h2 : o < 2147483648) (hle : begin_addr o ≤ end_addr o s) :
    ((sector_erases (write_path false false o s f)).length : Int)
        = (end_addr o s - begin_addr o) / 65536
      ∧ sector_erases (write_path false false o s f)
          = (List.range ((end_addr o s - begin_addr o) / 65536).toNat).map
              (fun (k : Nat) => begin_addr o + 65536 * (k : Int))
      ∧ List.Pairwise (fun a b => a < b) (sector_erases (write_path false false o s f))
      ∧ (∀ a ∈ sector_erases (write_path false false o s f),
          begin_addr o ≤ a ∧ a < end_addr o s ∧ a % 65536 = 0)
      ∧ (∀ g : List uint8_t, g.length = 300 →
          write_path false false 0 300 g
            = [.flash_write_enable, .flash_64kB_sector_erase 0, .flash_wait,
               .flash_write_enable, .flash_prog 0 (g.take 256), .flash_wait,
               .flash_write_enable, .flash_prog 256 (g.drop 256), .flash_wait]
          ∧ (g.take 256).length = 256 ∧ (g.drop 256).length = 44) := by
  obtain ⟨hb1, hb2, hb3⟩ := begin_addr_bounds o h1 h2
  obtain ⟨he1, he2, he3⟩ := end_addr_bounds o s
  have hs := sector_erases_write_path o s f h1 h2
  refine ⟨?_, hs, ?_, ?_, ?_⟩
  · rw [hs, List.length_map, List.length_range]
    omega
  · rw [hs]
    refine List.Pairwise.map _ ?_ (List.pairwise_lt_range _)
    intro a b hab
    omega
  · intro a ha
    rw [hs] at ha
    obtain ⟨k, hk, rfl⟩ := List.mem_map.1 ha
    have hk2 := List.mem_range.1 hk
    omega
  · intro g hg
    have hb0 : begin_addr 0 = 0 := by rw [begin_addr_eq]; decide
    have he0 : end_addr 0 300 = 65536 := by rw [end_addr_eq]; decide
    have hp0 : page (wrap32 (0 + 0)) = 256 := by decide
    have hp1 : page (wrap32 (0 + wrap32 (0 + ((256 : Nat) : Int)))) = 256 := by decide
    have ht : (g.take 256).length = 256 := by rw [List.length_take]; omega
    have hd : (g.drop 256).length = 44 := by rw [List.length_drop]; omega
    refine ⟨?_, ht, hd⟩
    have herase : erase_phase false false 0 300
        = [.flash_write_enable, .flash_64kB_sector_erase 0, .flash_wait] := by
      simp only [erase_phase, Bool.false_eq_true, if_false, hb0, he0]
      rfl
    rw [write_path, herase, hg]
    cases g with
    | nil => simp at hg
    | cons b g =>
      rw [prog_loop_cons, hp0, ht]
      have hne : ((b :: g).drop 256) ≠ [] := by
        intro h; rw [h] at hd; simp at hd
      obtain ⟨c, r, hcr⟩ := List.exists_cons_of_ne_nil hne
      have hw : wrap32 (0 + wrap32 (0 + ((256 : Nat) : Int))) = 256 := by decide
      have hw0 : wrap32 (0 + 0) = 0 := by decide
      have htall : (c :: r).take 256 = c :: r := by
        apply List.take_of_length_le
        rw [← hcr, hd]; omega
      have hdall : (c :: r).drop 256 = [] := by
        apply List.drop_eq_nil_of_le
        rw [← hcr, hd]; omega
      rw [hcr, prog_loop_cons, hp1, htall, hdall, prog_loop_nil, hw, hw0]
      rfl

/-- C9, amended, for a 300-byte file at offset 0. -/
theorem C9_targeted_erase_witness :
    write_path false false 0 300 (List.replicate 300 0)
        = [.flash_write_enable, .flash_64kB_sector_erase 0, .flash_wait,
           .flash_write_enable, .flash_prog 0 ((List.replicate 300 0).take 256), .flash_wait,
           .flash_write_enable, .flash_prog 256 ((List.replicate 300 0).drop 256), .flash_wait]
      ∧ sector_erases (write_path false false 0 300 (List.replicate 300 0))
          = (List.range ((end_addr 0 300 - begin_addr 0) / 65536).toNat).map
              (fun (k : Nat) => begin_addr 0 + 65536 * (k : Int)) :=
  ⟨((C9_targeted_erase 0 300 (List.replicate 300 0) (by decide) (by decide)
      (by rw [begin_addr_eq, end_addr_eq]; decide)).2.2.2.2
      (List.replicate 300 0) (List.length_replicate _ _)).1,
   (C9_targeted_erase 0 300 (List.replicate 300 0) (by decide) (by decide)
      (by rw [begin_addr_eq, end_addr_eq]; decide)).2.1⟩


/-! ## Write enable and wait around every erase and program -/

theorem guarded_nil : Guarded [] := by
  intro pre c post h
  simp at h

theorem guarded_single (c : Call) (hc : c.mutates = false) : Guarded [c] := by
  intro pre c1 post h hm
  cases pre with
  | nil =>
    simp only [List.nil_append, List.cons.injEq] at h
    rw [← h.1, hc] at hm
    cases hm
  | cons a pre => simp at h

theorem guarded_triple (m : Call) :
    Guarded [Call.flash_write_enable, m, Call.flash_wait] := by
  intro pre c post h hm
  match pre, h with
  | [], h =>
    simp only [List.nil_append, List.cons.injEq] at h
    rw [← h.1] at hm; cases hm
  | [a], h =>
    simp only [List.cons_append, List.nil_append, List.cons.injEq] at h
    exact ⟨⟨[], by rw [h.1]; rfl⟩, ⟨[], h.2.2.symm⟩⟩
  | [a, b], h =>
    simp only [List.cons_append, List.nil_append, List.cons.injEq] at h
    rw [← h.2.2.1] at hm; cases hm
  | a :: b :: d :: pre, h =>
    simp at h

theorem guarded_append (l1 l2 : List Call) (h1 : Guarded l1) (h2 : Guarded l2) :
    Guarded (l1 ++ l2) := by
  intro pre c post h hm
  rcases List.append_eq_append_iff.1 h with ⟨a, ha, hb⟩ | ⟨a, ha, hb⟩
  · obtain ⟨⟨p1, hp1⟩, hpost⟩ := h2 a c post hb hm
    exact ⟨⟨l1 ++ p1, by rw [ha, hp1, List.append_assoc]⟩, hpost⟩
  · cases a with
    | nil =>
      simp only [List.append_nil, List.nil_append] at ha hb
      obtain ⟨⟨p1, hp1⟩, hpost⟩ := h2 [] c post hb.symm hm
      cases p1 <;> simp at hp1
    | cons a0 a =>
      simp only [List.cons_append, List.cons.injEq] at hb
      rw [← hb.1] at ha
      obtain ⟨hpre, ⟨q1, hq1⟩⟩ := h1 pre c a ha hm
      exact ⟨hpre, ⟨q1 ++ l2, by rw [hb.2, hq1]; rfl⟩⟩

theorem guarded_flatMap {α : Type} (g : α → List Call) (hg : ∀ x, Guarded (g x)) :
    ∀ l : List α, Guarded (l.flatMap g) := by
  intro l
  induction l with
  | nil => exact guarded_nil
  | cons x l ih =>
    rw [List.flatMap_cons]
    exact guarded_append _ _ (hg x) ih

theorem guarded_erase_loop (e : Int) : ∀ (fuel : Nat) (addr : Int),
    Guarded (erase_loop e fuel addr) := by
  intro fuel
  induction fuel with
  | zero => intro addr; exact guarded_nil
  | succ fuel ih =>
    intro addr
    simp only [erase_loop]
    split_ifs
    · exact guarded_append _ _ (guarded_triple _) (ih _)
    · exact guarded_nil

theorem guarded_prog_loop (o : Int) : ∀ (fuel : Nat) (addr : Int) (f : List uint8_t),
    Guarded (prog_loop o fuel addr f) := by
  intro fuel
  induction fuel with
  | zero => intro addr f; exact guarded_nil
  | succ fuel ih =>
    intro addr f
    cases f with
    | nil => rw [prog_loop_nil]; exact guarded_nil
    | cons b f =>
      rw [prog_loop_cons]
      exact guarded_append _ _ (guarded_triple _) (ih _ _)

theorem guarded_write_path (dont_erase bulk_erase : Bool) (o s : Int) (f : List uint8_t) :
    Guarded (write_path dont_erase bulk_erase o s f) := by
  unfold write_path erase_phase
  refine guarded_append _ _ ?_ (guarded_prog_loop _ _ _ _)
  split_ifs
  · exact guarded_nil
  · exact guarded_triple _
  · exact guarded_erase_loop _ _ _

theorem guarded_commit_loop (buffer : Nat → uint8_t) (page_size subsector_size : Nat) :
    ∀ (fuel addr : Nat), Guarded (commit_loop buffer page_size subsector_size fuel addr) := by
  intro fuel
  induction fuel with
  | zero => intro addr; exact guarded_nil
  | succ fuel ih =>
    intro addr
    simp only [commit_loop]
    split_ifs
    · exact guarded_append _ _ (guarded_triple _) (ih _)
    · exact guarded_nil

theorem guarded_of_no_mutation (l : List Call) (h : ∀ c ∈ l, c.mutates = false) : Guarded l := by
  intro pre c post hl hm
  have := h c (by rw [hl]; simp)
  rw [this] at hm
  cases hm

theorem guarded_test_change_vectors (vector1 vector2 : Nat) (buffer : Nat → uint8_t) :
    Guarded (test_change_vectors vector1 vector2 buffer) := by
  unfold test_change_vectors commit
  refine guarded_append _ _ (guarded_append _ _ ?_ (guarded_append _ _ (guarded_triple _)
    (guarded_commit_loop _ _ _ _ _))) (guarded_single _ rfl)
  exact guarded_of_no_mutation _ (by decide)

theorem guarded_test_get_vectors (buffer : Nat → uint8_t) :
    Guarded (test_get_vectors buffer) := by
  unfold test_get_vectors
  refine guarded_append _ _ (guarded_append _ _ ?_ ?_) (guarded_single _ rfl)
  · exact guarded_of_no_mutation _ (by decide)
  · exact guarded_flatMap _ (fun r => guarded_single (Call.flash_read _ 25) rfl) _

theorem guarded_read_loop (o n : Int) : ∀ (fuel : Nat) (addr : Int),
    Guarded (read_loop o n fuel addr) := by
  intro fuel
  induction fuel with
  | zero => intro addr; exact guarded_nil
  | succ fuel ih =>
    intro addr
    simp only [read_loop]
    split_ifs
    · exact guarded_append [_] _ (guarded_single _ rfl) (ih _)
    · exact guarded_nil

theorem guarded_verify_loop (o : Int) (rd : Int → Nat → List uint8_t) :
    ∀ (fuel : Nat) (addr : Int) (f : List uint8_t), Guarded (verify_loop o rd fuel addr f).1 := by
  intro fuel
  induction fuel with
  | zero => intro addr f; exact guarded_nil
  | succ fuel ih =>
    intro addr f
    simp only [verify_loop]
    split_ifs
    · exact guarded_nil
    · exact guarded_single _ rfl
    · exact guarded_append [_] _ (guarded_single _ rfl) (ih _ _)

theorem guarded_ite (p : Prop) [Decidable p] (a b : List Call) (ha : Guarded a)
    (hb : Guarded b) : Guarded (if p then a else b) := by
  split_ifs
  · exact ha
  · exact hb

theorem guarded_main_change_vectors (vector1 vector2 : Nat) (buffer : Nat → uint8_t) :
    Guarded (main_change_vectors vector1 vector2 buffer) :=
  guarded_ite _ _ _ (guarded_test_change_vectors _ _ _) guarded_nil

theorem guarded_main (fuel : Nat) (o : Options) (e : Env) : Guarded (main fuel o e) := by
  unfold main
  refine guarded_ite _ _ _ guarded_nil (guarded_ite _ _ _ guarded_nil
    (guarded_ite _ _ _ (guarded_of_no_mutation _ (by decide)) (guarded_ite _ _ _ guarded_nil
    (guarded_ite _ _ _ (guarded_main_change_vectors _ _ _)
    (guarded_ite _ _ _ (guarded_test_get_vectors _) ?_)))))
  refine guarded_append _ _ (guarded_append _ _ (guarded_of_no_mutation _ (by decide)) ?_) ?_
  · exact guarded_ite _ _ _ (guarded_write_path _ _ _ _ _) guarded_nil
  · refine guarded_ite _ _ _ (guarded_append _ _ (guarded_read_loop _ _ _ _)
      (guarded_single _ rfl)) ?_
    exact guarded_append _ _ (guarded_verify_loop _ _ _ _ _)
      (guarded_ite _ _ _ (guarded_single _ rfl) guarded_nil)


/-- The loop of `flash_wait` returns only after a poll whose status byte has
bit 0 clear; every poll before it found the bit set. -/
theorem flash_wait_spec : ∀ (replies : List uint8_t) (n : Nat), flash_wait replies = some n →
    1 ≤ n ∧ (∃ st, replies[n - 1]? = some st ∧ st.val % 2 = 0)
      ∧ (∀ k st, k + 1 < n → replies[k]? = some st → st.val % 2 = 1) := by
  intro replies
  induction replies with
  | nil => intro n h; simp [flash_wait] at h
  | cons status rest ih =>
    intro n h
    simp only [flash_wait] at h
    split_ifs at h with hs
    · simp only [Option.some.injEq] at h
      subst h
      exact ⟨le_refl 1, ⟨status, by simp, hs⟩, fun k st hk => by omega⟩
    · cases hr : flash_wait rest with
      | none => rw [hr] at h; simp at h
      | some m =>
        rw [hr] at h
        simp only [Option.map_some', Option.some.injEq] at h
        subst h
        obtain ⟨h1, ⟨st, hst1, hst2⟩, h3⟩ := ih m hr
        refine ⟨by omega, ⟨st, ?_, hst2⟩, ?_⟩
        · have : m + 1 - 1 = (m - 1) + 1 := by omega
          rw [this, List.getElem?_cons_succ]
          exact hst1
        · intro k st1 hk hget
          cases k with
          | zero =>
            simp only [List.getElem?_cons_zero, Option.some.injEq] at hget
            subst hget
            omega
          | succ k =>
            rw [List.getElem?_cons_succ] at hget
            exact h3 k st1 (by omega) hget

theorem mutates_iff_opcode (c : Call) :
    c.mutates = true
      ↔ (c.opcode = some 0xC7 ∨ c.opcode = some 0xD8 ∨ c.opcode = some 0x20
          ∨ c.opcode = some 0x02) := by
  cases c <;>
    simp [Call.mutates, Call.opcode, Call.ops, mosi, command, flash_read_id, flash_power_up,
      flash_power_down, flash_write_enable, flash_bulk_erase, flash_64kB_sector_erase,
      flash_4kB_subsector_erase, flash_prog, flash_read, flash_wait_poll]

/-! ## C10: write enable before, wait after -/

/-- C10: in the list of flash routines any run of `main` calls (bulk erase,
targeted sector erase, page-program loop, boot-vector commit, and the modes that
only read), every erase command (`C7h`, `D8h`, `20h`) and every page-program
command (`02h`) has `flash_write_enable` (`06h`) as the call right before it and
`flash_wait` as the call right after it; and `flash_wait` returns only once a
status poll has answered with bit 0 clear.  The same holds for the write path
and for `test_change_vectors` on their own, whatever their arguments. -/
theorem C10_write_enable_and_wait (fuel : Nat) (o : Options) (e : Env) :
    (∀ (pre : List Call) (c : Call) (post : List Call),
        main fuel o e = pre ++ c :: post → c.mutates = true →
          (∃ pre1, pre = pre1 ++ [Call.flash_write_enable])
            ∧ (∃ post1, post = Call.flash_wait :: post1))
      ∧ (∀ dont_erase bulk_erase rw_offset st_size f,
          Guarded (write_path dont_erase bulk_erase rw_offset st_size f))
      ∧ (∀ vector1 vector2 buffer, Guarded (test_change_vectors vector1 vector2 buffer))
      ∧ (∀ c : Call, c.mutates = true
          ↔ (c.opcode = some 0xC7 ∨ c.opcode = some 0xD8 ∨ c.opcode = some 0x20
              ∨ c.opcode = some 0x02))
      ∧ Call.flash_write_enable.opcode = some 0x06
      ∧ Call.flash_wait.opcode = some 0x05
      ∧ (∀ (replies : List uint8_t) (n : Nat), flash_wait replies = some n →
          1 ≤ n ∧ (∃ st, replies[n - 1]? = some st ∧ st.val % 2 = 0)
            ∧ (∀ k st, k + 1 < n → replies[k]? = some st → st.val % 2 = 1)) :=
  ⟨guarded_main fuel o e, guarded_write_path, guarded_test_change_vectors, mutates_iff_opcode,
    rfl, rfl, flash_wait_spec⟩


/-! ## Framing of SPI transfers on the link -/

/-- C12: for every address `addr`, each addressed flash command
(`flash_64kB_sector_erase` `D8h`, `flash_4kB_subsector_erase` `20h`,
`flash_prog` `02h`, `flash_read` `03h`) sends as one write-only transfer exactly
4 bytes, its opcode followed by `addr>>16`, `addr>>8`, `addr`, each mod 256;
for `0 <= addr < 2^24` the three bytes read big-endian give back `addr`, and two
different 24-bit addresses never give the same command bytes. -/
theorem C12_addressed_commands (addr : Int) :
    flash_64kB_sector_erase addr
        = [.set_gpio 0 0,
           .send_spi [0xd8, u8 (addr >>> (16 : Nat)), u8 (addr >>> (8 : Nat)), u8 addr],
           .set_gpio 1 0]
      ∧ flash_4kB_subsector_erase addr
        = [.set_gpio 0 0,
           .send_spi [0x20, u8 (addr >>> (16 : Nat)), u8 (addr >>> (8 : Nat)), u8 addr],
           .set_gpio 1 0]
      ∧ (∀ data, flash_prog addr data
        = [.set_gpio 0 0,
           .send_spi [0x02, u8 (addr >>> (16 : Nat)), u8 (addr >>> (8 : Nat)), u8 addr],
           .send_spi data, .set_gpio 1 0])
      ∧ (∀ n, flash_read addr n
        = [.set_gpio 0 0,
           .send_spi [0x03, u8 (addr >>> (16 : Nat)), u8 (addr >>> (8 : Nat)), u8 addr],
           .xfer_spi (List.replicate n 0), .set_gpio 1 0])
      ∧ ((u8 (addr >>> (16 : Nat))).val = ((addr / 65536) % 256).toNat
          ∧ (u8 (addr >>> (8 : Nat))).val = ((addr / 256) % 256).toNat
          ∧ (u8 addr).val = (addr % 256).toNat)
      ∧ (∀ (opcode : uint8_t) (l : Link),
          (send_spi (command opcode addr) 4 l).tx
            = l.tx ++ [0x11, 3, 0] ++ [opcode, u8 (addr >>> (16 : Nat)), u8 (addr >>> (8 : Nat)),
                u8 addr])
      ∧ (0 ≤ addr → addr < 16777216 →
          (be24 (u8 (addr >>> (16 : Nat))) (u8 (addr >>> (8 : Nat))) (u8 addr) : Int) = addr)
      ∧ (∀ (opcode : uint8_t) (a b : Int), 0 ≤ a → a < 16777216 → 0 ≤ b → b < 16777216 →
          command opcode a = command opcode b → a = b) := by
  have h16 : ∀ x : Int, x >>> (16 : Nat) = x / 65536 := by
    intro x; rw [Int.shiftRight_eq_div_pow]; norm_num
  have h8 : ∀ x : Int, x >>> (8 : Nat) = x / 256 := by
    intro x; rw [Int.shiftRight_eq_div_pow]; norm_num
  refine ⟨rfl, rfl, fun _ => rfl, fun _ => rfl, ⟨?_, ?_, ?_⟩, ?_, ?_, ?_⟩
  · rw [h16]; simp only [u8]
  · rw [h8]; simp only [u8]
  · simp only [u8]
  · intro opcode l
    simp only [send_spi, command, send_byte]
    rw [if_neg (by decide)]
    simp only [List.append_assoc, List.cons_append, List.nil_append]
    rfl
  · intro h0 h1
    rw [be24_command]
    omega
  · intro opcode a b ha0 ha1 hb0 hb1 h
    simp only [command, List.cons.injEq, and_true, true_and] at h
    have ea := be24_command a
    have eb := be24_command b
    rw [h.1, h.2.1, h.2.2] at ea
    rw [ea] at eb
    omega


/-! ## C13: the read mode -/

theorem flash_read_data_length (mem : Flash) (addr : Int) (n : Nat) (h : n ≤ 65536) :
    (flash_read_data mem addr n).length = n := by
  rw [flash_read_data_eq, framed_length_of_le n h]
  simp [Flash.load]

/-- The read mode writes whole chunks: for a byte count `read_size` up to
`2^31 - 256` its output has `256 * ceil(read_size / 256)` bytes. -/
theorem read_output_length (mem : Flash) (rw_offset read_size : Int)
    (hN : read_size ≤ 2147483392) : ∀ (fuel : Nat) (addr : Int), 0 ≤ addr → addr % 256 = 0 →
    (read_size - addr + 255) / 256 ≤ fuel →
    ((read_output mem rw_offset read_size fuel addr).length : Int)
      = 256 * max 0 ((read_size - addr + 255) / 256) := by
  intro fuel
  induction fuel with
  | zero =>
    intro addr h0 h1 hf
    simp only [read_output, List.length_nil]
    omega
  | succ fuel ih =>
    intro addr h0 h1 hf
    simp only [read_output]
    split_ifs with hlt
    · have hw : wrap32 (addr + 256) = addr + 256 := by simp only [wrap32]; omega
      rw [List.length_append, flash_read_data_length _ _ _ (by decide), hw]
      push_cast
      rw [ih (addr + 256) (by omega) (by omega) (by push_cast at hf; omega)]
      omega
    · simp only [List.length_nil]
      omega

/-- C13 at its failing input: asked for one byte (`-R 1`), the read loop makes
one round, reads 256 bytes and writes all 256 to the output, more than the
byte count given; in general the output has `256 * ceil(read_size / 256)`
bytes. -/
theorem C13_read_one_byte (mem : Flash) (rw_offset : Int) (fuel : Nat) :
    read_loop rw_offset 1 (fuel + 1) 0 = [.flash_read (wrap32 (rw_offset + 0)) 256]
      ∧ (read_output mem rw_offset 1 (fuel + 1) 0).length = 256
      ∧ ¬ ((read_output mem rw_offset 1 (fuel + 1) 0).length ≤ 1)
      ∧ (∀ read_size : Int, 0 ≤ read_size → read_size ≤ 2147483392 →
          ((read_output mem rw_offset read_size 8388608 0).length : Int)
            = 256 * ((read_size + 255) / 256)) := by
  have h1 : read_loop rw_offset 1 (fuel + 1) 0 = [.flash_read (wrap32 (rw_offset + 0)) 256] := by
    cases fuel <;> simp [read_loop, wrap32]
  have h2 : (read_output mem rw_offset 1 (fuel + 1) 0).length = 256 := by
    cases fuel <;>
      simp [read_output, wrap32, flash_read_data_length _ _ 256 (by decide)]
  refine ⟨h1, h2, by rw [h2]; decide, ?_⟩
  intro N h0 hN
  rw [read_output_length mem rw_offset N hN 8388608 0 (le_refl 0) (by decide)
    (by push_cast; omega)]
  omega


/-! ## C14: the abort routine -/

/-- The drain of `check_rx`: the leading bytes of the pending reads are taken,
together with the one read that returned no byte. -/
theorem check_rx_spec : ∀ rx : List Rx,
    ∃ (stray : List uint8_t) (rest : List Rx), rx = stray.map Rx.byte ++ rest
      ∧ (∀ d tl, rest ≠ Rx.byte d :: tl) ∧ check_rx rx = rest.tail := by
  intro rx
  induction rx with
  | nil => exact ⟨[], [], rfl, fun d tl h => by simp at h, rfl⟩
  | cons r rx ih =>
    cases r with
    | byte d =>
      obtain ⟨stray, rest, h1, h2, h3⟩ := ih
      exact ⟨d :: stray, rest, by rw [h1]; rfl, h2, by simp only [check_rx]; exact h3⟩
    | idle => exact ⟨[], Rx.idle :: rx, rfl, fun d tl h => by simp at h, rfl⟩
    | fail => exact ⟨[], Rx.fail :: rx, rfl, fun d tl h => by simp at h, rfl⟩

/-- C14, as stated, fails: `error()` writes nothing to the link.  Called in the
middle of a flash command, after `set_gpio(0, 0)` has asserted chip-select and
reset (bytes `0x80 0x01 0x93`), it drains the pending byte, restores the
latency and exits with status 1, and the bytes written are still those three:
no pin-set `0x80 0x91 0x93` deasserting the two lines has been sent. -/
theorem C14_no_pin_release :
    (set_gpio 0 0 ⟨[], []⟩).tx = [0x80, 0x01, 0x93]
      ∧ (set_gpio 1 1 ⟨[], []⟩).tx = [0x80, 0x91, 0x93]
      ∧ (error ⟨⟨[0x80, 0x01, 0x93], [.byte 5, .idle]⟩, true, true, 16, 1, false, none⟩).link
          = ⟨[0x80, 0x01, 0x93], []⟩
      ∧ (error ⟨⟨[0x80, 0x01, 0x93], [.byte 5, .idle]⟩, true, true, 16, 1, false, none⟩).latency
          = 16
      ∧ (error ⟨⟨[0x80, 0x01, 0x93], [.byte 5, .idle]⟩, true, true, 16, 1, false,
            none⟩).exit_status = some 1 := by
  decide

/-- C14, amended: whenever `error()` is called after the link was opened and its
latency changed, the routine, before terminating the process with status 1,
drains the stray unread bytes and restores the link's original polling latency
(and closes the device); it sends nothing to the bridge, so the hardware lines
stay as the last pin-set left them. -/
theorem C14_error_restores (s : Session) (hopen : s.ftdic_open = true)
    (hset : s.ftdic_latency_set = true) :
    (error s).exit_status = some 1
      ∧ (error s).latency = s.ftdi_latency
      ∧ (error s).usb_closed = true
      ∧ (error s).link.tx = s.link.tx
      ∧ (∃ (stray : List uint8_t) (rest : List Rx), s.link.rx = stray.map Rx.byte ++ rest
          ∧ (∀ d tl, rest ≠ Rx.byte d :: tl) ∧ (error s).link.rx = rest.tail) := by
  have e : error s
      = { s with link := ⟨s.link.tx, check_rx s.link.rx⟩, latency := s.ftdi_latency,
                 usb_closed := true, exit_status := some 1 } := by
    simp only [error, hopen, hset, if_true]
  rw [e]
  exact ⟨rfl, rfl, rfl, rfl, check_rx_spec s.link.rx⟩

/-- C14, amended, for an abort with the saved latency 16, the device running
with latency 1, and two stray bytes pending. -/
theorem C14_error_restores_witness :
    (error ⟨⟨[0x80, 0x01, 0x93], [.byte 5, .byte 6, .idle, .byte 7]⟩, true, true, 16, 1, false,
        none⟩).exit_status = some 1
      ∧ (error ⟨⟨[0x80, 0x01, 0x93], [.byte 5, .byte 6, .idle, .byte 7]⟩, true, true, 16, 1,
          false, none⟩).latency = 16 :=
  ⟨(C14_error_restores
      ⟨⟨[0x80, 0x01, 0x93], [.byte 5, .byte 6, .idle, .byte 7]⟩, true, true, 16, 1, false, none⟩
      rfl rfl).1,
   (C14_error_restores
      ⟨⟨[0x80, 0x01, 0x93], [.byte 5, .byte 6, .idle, .byte 7]⟩, true, true, 16, 1, false, none⟩
      rfl rfl).2.1⟩


/-! ## C15: the chunks of the program loop cover the input -/

/-- The payloads of the program loop, put together in the order of issue, are
the input; none of them is empty. -/
theorem prog_loop_payloads (o : Int) : ∀ (fuel : Nat) (addr : Int) (f : List uint8_t),
    f.length < fuel →
    ((progs (prog_loop o fuel addr f)).map Prod.snd).flatten = f
      ∧ ∀ c ∈ progs (prog_loop o fuel addr f), c.2 ≠ [] := by
  intro fuel
  induction fuel with
  | zero => intro addr f h; omega
  | succ fuel ih =>
    intro addr f h
    cases f with
    | nil => simp [prog_loop_nil, progs]
    | cons b f =>
      have hp := page_pos (wrap32 (o + addr))
      obtain ⟨ih1, ih2⟩ := ih
        (wrap32 (addr + ((b :: f).take (page (wrap32 (o + addr)))).length))
        ((b :: f).drop (page (wrap32 (o + addr))))
        (by rw [List.length_drop]; simp only [List.length_cons] at h ⊢; omega)
      rw [prog_loop_cons, progs_append]
      simp only [progs, List.cons_append, List.nil_append, List.map_cons, List.flatten_cons,
        List.mem_cons]
      constructor
      · rw [ih1, List.take_append_drop]
      · intro c hc
        rcases hc with rfl | hc
        · intro h0
          have := congrArg List.length h0
          rw [List.length_take] at this
          simp only [List.length_cons, List.length_nil] at this
          omega
        · exact ih2 c hc

/-- C15, as stated, fails when the addresses leave the range of `int`: at the
non-negative offset `2^31 - 1` a two-byte input is sent as two chunks, the
second to address `-2^31`, which is not the offset plus the one byte sent
before. -/
theorem C15_address_overflow :
    (0 : Int) ≤ 2147483647
      ∧ progs (write_path false false 2147483647 2 [0, 0])
          = [(2147483647, [0]), (-2147483648, [0])]
      ∧ ¬ ((-2147483648 : Int) = 2147483647 + (([0] : List uint8_t).length : Int)) := by
  rw [progs_write_path]
  decide

/-- C15, amended: for every non-negative write offset `o` and every input byte
sequence `F` with `o + len(F)` at most `2^31` (each file read returning the bytes
asked for or all that remain), the page-program commands of the program loop in
`main` target contiguous address ranges starting at `o` (the address of a chunk
is `o` plus the total length of the chunks before it), every payload is
non-empty, and the payloads in issue order make up exactly `F`; for empty `F`
no program command is issued. -/
theorem C15_chunks_cover_input (dont_erase bulk_erase : Bool) (o st_size : Int)
    (F : List uint8_t) (h0 : 0 ≤ o) (hfit : o + F.length ≤ 2147483648) :
    (∀ pre c post, progs (write_path dont_erase bulk_erase o st_size F) = pre ++ c :: post →
        c.1 = o + ((pre.map (fun p => p.2.length)).sum : Nat) ∧ c.2 ≠ [])
      ∧ ((progs (write_path dont_erase bulk_erase o st_size F)).map Prod.snd).flatten = F
      ∧ (F = [] → progs (write_path dont_erase bulk_erase o st_size F) = []) := by
  rw [progs_write_path]
  obtain ⟨hcat, hne⟩ := prog_loop_payloads o (F.length + 1) 0 F (by omega)
  refine ⟨?_, hcat, ?_⟩
  · intro pre c post h
    have hc : c.2 ≠ [] := hne c (by rw [h]; simp)
    refine ⟨?_, hc⟩
    rw [prog_loop_addr o _ _ _ pre c post h, Int.add_zero]
    have hlen := congrArg List.length hcat
    rw [h, List.length_flatten] at hlen
    simp only [List.map_append, List.map_cons, List.sum_append, List.sum_cons, List.map_map]
      at hlen
    have hpos : 0 < c.2.length := List.length_pos.2 hc
    have hsum : (pre.map (fun p => p.2.length)).sum
        = (List.map (List.length ∘ Prod.snd) pre).sum := rfl
    simp only [wrap32]
    omega
  · intro hF
    rw [hF, prog_loop_nil]
    rfl

/-- C15, amended, for a 300-byte input at offset 200. -/
theorem C15_chunks_cover_input_witness :
    ((progs (write_path false false 200 300 (List.replicate 300 0))).map Prod.snd).flatten
      = List.replicate 300 (0 : uint8_t) :=
  (C15_chunks_cover_input false false 200 300 (List.replicate 300 0) (by decide)
    (by rw [List.length_replicate]; decide)).2.1

end Iceprog
